import Mathlib

/-!
Verification development for the price-list merging scripts
(`merge_pricelists.py`, `view_data.py`, `export_to_excel.py`).

Text values are modelled as `List Char` (Python `str`), spreadsheet cells as
an inductive `Cell` (null / numeric / text; numeric scalars are modelled as
integers), and SQLite parameter bindings as `SqlValue`.  Loops whose Python
termination argument is extra-structural (the `while '__' in s` collapse
loop, the `_1`, `_2`, … collision search, `LIKE` matching) are written with
an explicit fuel argument large enough to reproduce the Python behaviour
exactly; the accompanying lemmas discharge the fuel.
-/

set_option maxRecDepth 40000

/-- Text, i.e. a Python `str`, as a list of characters. -/
abbrev Txt := List Char

/-- A spreadsheet cell as pandas hands it to the script: missing (`NaN`/`None`),
a numeric scalar (modelled as an integer), or a string. -/
inductive Cell where
  | null : Cell
  | num : Int → Cell
  | str : Txt → Cell
deriving DecidableEq

/-- A value bound into a parameterized SQLite statement: Python `None`,
a number, or a string. -/
inductive SqlValue where
  | null : SqlValue
  | num : Int → SqlValue
  | text : Txt → SqlValue
deriving DecidableEq

/-! ## clean_column_name (merge_pricelists.py lines 370-416) -/

/-- The fixed `invalid_chars` list of `clean_column_name` (line 379), in source
order.  The brace, backslash and quote characters are written via their code
points. -/
def invalidChars : List Char :=
  [' ', '-', '.', '(', ')', '[', ']', Char.ofNat 123, Char.ofNat 125,
   '!', '@', '#', '$', '%', '^', '&', '*', '+', '=', '|', Char.ofNat 92,
   '/', ':', ';', Char.ofNat 34, Char.ofNat 39, ',', '<', '>', '?']

/-- Python `s.replace(c, '_')` for a single character `c`. -/
def replaceChar (c : Char) (s : Txt) : Txt :=
  s.map (fun d => if d = c then '_' else d)

/-- The `for char in invalid_chars: column_name = column_name.replace(char, '_')`
loop (lines 381-382). -/
def removeInvalid (s : Txt) : Txt :=
  invalidChars.foldl (fun t c => replaceChar c t) s

/-- One pass of Python `s.replace('__', '_')`: non-overlapping left-to-right
replacement of each `__` by `_`. -/
def replDD : Txt → Txt
  | [] => []
  | [c] => [c]
  | c :: d :: rest =>
    if c = '_' ∧ d = '_' then '_' :: replDD rest else c :: replDD (d :: rest)

/-- Whether `'__' in s` holds: the string contains two adjacent underscores. -/
def hasDD : Txt → Bool
  | [] => false
  | [_] => false
  | c :: d :: rest => (c = '_' && d = '_') || hasDD (d :: rest)

/-- The `while '__' in column_name` loop (lines 385-386), with fuel.  Each
iteration strictly shrinks the string, so fuel `s.length` always suffices. -/
def collapseDD : Nat → Txt → Txt
  | 0, s => s
  | fuel + 1, s => if hasDD s then collapseDD fuel (replDD s) else s

/-- The fully collapsed string: the fixpoint the Python while loop reaches. -/
def collapse (s : Txt) : Txt :=
  collapseDD s.length s

/-- Drop a run of characters satisfying `p` from the end of the string. -/
def dropTrailingWhile (p : Char → Bool) (s : Txt) : Txt :=
  (s.reverse.dropWhile p).reverse

/-- Python `s.strip('_')`: remove leading and trailing runs of underscores. -/
def stripU (s : Txt) : Txt :=
  dropTrailingWhile (fun c => c = '_') (s.dropWhile (fun c => c = '_'))

/-- The placeholder identifier used when sanitization empties a column name. -/
def unnamedColumn : Txt := String.toList "unnamed_column"

/-- State of `column_name` after lines 381-389: invalid characters replaced,
`__` runs collapsed by the while loop, underscores stripped from both ends. -/
def cleanStage3 (s : Txt) : Txt :=
  stripU (collapse (removeInvalid s))

/-- State after the first emptiness fallback (lines 392-393). -/
def cleanStage4 (s : Txt) : Txt :=
  if cleanStage3 s = [] then unnamedColumn else cleanStage3 s

/-- State after `re.sub(r'^[0-9]+', '', ...)` and the second strip
(lines 396-397). -/
def cleanStage5 (s : Txt) : Txt :=
  stripU ((cleanStage4 s).dropWhile Char.isDigit)

/-- State after the second emptiness fallback (lines 400-401). -/
def cleanStage6 (s : Txt) : Txt :=
  if cleanStage5 s = [] then unnamedColumn else cleanStage5 s

/-- `clean_column_name` without an `existing_columns` set (lines 370-405 of
`merge_pricelists.py`): replace the fixed invalid characters with `_`,
collapse `__` runs, strip `_` from both ends, fall back to the placeholder
when empty, strip leading ASCII digits and strip `_` again, fall back again
when empty, and finally truncate to 50 characters (lines 404-405). -/
def cleanColumnName (s : Txt) : Txt :=
  if 50 < (cleanStage6 s).length then (cleanStage6 s).take 50 else cleanStage6 s

/-! ### Basic facts about the sanitizer pipeline -/

theorem replaceChar_map (c : Char) (s : Txt) :
    replaceChar c s = s.map (fun d => if d = c then '_' else d) := rfl

/-- Folding single-character replacements over a list `L` not containing `'_'`
is one simultaneous replacement. -/
theorem foldl_replaceChar_eq_map (L : List Char) (hL : '_' ∉ L) (s : Txt) :
    L.foldl (fun t c => replaceChar c t) s
      = s.map (fun d => if d ∈ L then '_' else d) := by
  induction L generalizing s with
  | nil => simp
  | cons c L ih =>
    have hLu : '_' ∉ L := fun h => hL (List.mem_cons_of_mem _ h)
    have hcu : c ≠ '_' := fun h => hL (h ▸ List.mem_cons_self _ _)
    rw [List.foldl_cons, ih hLu]
    unfold replaceChar
    rw [List.map_map]
    apply List.map_congr_left
    intro d _
    by_cases hdc : d = c
    · subst hdc
      simp [ite_self]
    · simp [hdc]

theorem removeInvalid_eq_map (s : Txt) :
    removeInvalid s = s.map (fun d => if d ∈ invalidChars then '_' else d) :=
  foldl_replaceChar_eq_map invalidChars (by decide) s

theorem removeInvalid_no_invalid (s : Txt) :
    ∀ c ∈ removeInvalid s, c ∉ invalidChars := by
  intro c hc
  rw [removeInvalid_eq_map] at hc
  rcases List.mem_map.mp hc with ⟨d, _, hd⟩
  by_cases hmem : d ∈ invalidChars
  · simp [hmem] at hd
    subst hd
    decide
  · simp [hmem] at hd
    subst hd
    exact hmem

theorem removeInvalid_of_clean (s : Txt) (h : ∀ c ∈ s, c ∉ invalidChars) :
    removeInvalid s = s := by
  rw [removeInvalid_eq_map]
  conv_rhs => rw [← List.map_id s]
  apply List.map_congr_left
  intro d hd
  simp [h d hd]

/-! ### Double-underscore bookkeeping -/

theorem hasDD_iff : ∀ s : Txt, hasDD s = true ↔ ∃ l r, s = l ++ '_' :: '_' :: r
  | [] => by
    constructor
    · intro h; simp [hasDD] at h
    · rintro ⟨l, r, h⟩
      have := congrArg List.length h
      simp at this
      omega
  | [c] => by
    constructor
    · intro h; simp [hasDD] at h
    · rintro ⟨l, r, h⟩
      have := congrArg List.length h
      simp at this
      omega
  | c :: d :: rest => by
    have ih := hasDD_iff (d :: rest)
    constructor
    · intro h
      simp [hasDD] at h
      rcases h with ⟨hc, hd⟩ | h
      · exact ⟨[], rest, by simp [hc, hd]⟩
      · rcases ih.mp h with ⟨l, r, hl⟩
        exact ⟨c :: l, r, by simp [hl]⟩
    · rintro ⟨l, r, hl⟩
      cases l with
      | nil =>
        simp at hl
        obtain ⟨h1, h2, _⟩ := hl
        simp [hasDD, h1, h2]
      | cons e l₂ =>
        simp at hl
        obtain ⟨_, h2⟩ := hl
        have : hasDD (d :: rest) = true := ih.mpr ⟨l₂, r, h2⟩
        simp [hasDD, this]

theorem hasDD_append_right (l r : Txt) (h : hasDD r = true) :
    hasDD (l ++ r) = true := by
  rcases (hasDD_iff r).mp h with ⟨a, b, rfl⟩
  exact (hasDD_iff _).mpr ⟨l ++ a, b, by simp⟩

theorem hasDD_append_left (l r : Txt) (h : hasDD l = true) :
    hasDD (l ++ r) = true := by
  rcases (hasDD_iff l).mp h with ⟨a, b, rfl⟩
  exact (hasDD_iff _).mpr ⟨a, b ++ r, by simp⟩

theorem hasDD_reverse (s : Txt) : hasDD s.reverse = hasDD s := by
  have dir : ∀ t : Txt, hasDD t = true → hasDD t.reverse = true := by
    intro t ht
    rcases (hasDD_iff t).mp ht with ⟨a, b, rfl⟩
    refine (hasDD_iff _).mpr ⟨b.reverse, a.reverse, ?_⟩
    simp
  by_cases hs : hasDD s = true
  · rw [hs]; exact dir s hs
  · have hs' : hasDD s = false := Bool.eq_false_iff.mpr hs
    rw [hs']
    cases hr : hasDD s.reverse with
    | false => rfl
    | true =>
      have := dir s.reverse hr
      rw [List.reverse_reverse] at this
      rw [this] at hs'
      cases hs'

theorem hasDD_take_false (n : Nat) (s : Txt) (h : hasDD s = false) :
    hasDD (s.take n) = false := by
  cases ht : hasDD (s.take n) with
  | false => rfl
  | true =>
    have := hasDD_append_left _ (s.drop n) ht
    rw [List.take_append_drop] at this
    rw [this] at h
    cases h

theorem hasDD_dropWhile_false (p : Char → Bool) (s : Txt) (h : hasDD s = false) :
    hasDD (s.dropWhile p) = false := by
  cases ht : hasDD (s.dropWhile p) with
  | false => rfl
  | true =>
    rcases List.dropWhile_suffix p (l := s) with ⟨v, hv⟩
    have := hasDD_append_right v _ ht
    rw [hv] at this
    rw [this] at h
    cases h

theorem hasDD_dropTrailingWhile_false (p : Char → Bool) (t : Txt)
    (h : hasDD t = false) : hasDD (dropTrailingWhile p t) = false := by
  unfold dropTrailingWhile
  rw [hasDD_reverse]
  apply hasDD_dropWhile_false
  rw [hasDD_reverse]
  exact h

/-! ### The collapse loop terminates and reaches a fixpoint -/

theorem replDD_length_le : ∀ s : Txt, (replDD s).length ≤ s.length
  | [] => by simp [replDD]
  | [c] => by simp [replDD]
  | c :: d :: rest => by
    by_cases h : c = '_' ∧ d = '_'
    · have ih := replDD_length_le rest
      simp only [replDD, if_pos h, List.length_cons]
      omega
    · have ih := replDD_length_le (d :: rest)
      simp only [List.length_cons] at ih
      simp only [replDD, if_neg h, List.length_cons]
      omega

theorem replDD_length_lt : ∀ s : Txt, hasDD s = true → (replDD s).length < s.length
  | [], h => by simp [hasDD] at h
  | [c], h => by simp [hasDD] at h
  | c :: d :: rest, h => by
    by_cases hc : c = '_' ∧ d = '_'
    · have := replDD_length_le rest
      simp only [replDD, if_pos hc, List.length_cons]
      omega
    · have hdd : hasDD (d :: rest) = true := by
        simp [hasDD] at h
        rcases h with ⟨h1, h2⟩ | h2
        · exact absurd ⟨h1, h2⟩ hc
        · exact h2
      have := replDD_length_lt (d :: rest) hdd
      simp only [List.length_cons] at this
      simp only [replDD, if_neg hc, List.length_cons]
      omega

theorem replDD_mem : ∀ (s : Txt) (c : Char), c ∈ replDD s → c ∈ s
  | [], c, h => by simp [replDD] at h
  | [d], c, h => by
    simp [replDD] at h
    simp [h]
  | d :: e :: rest, c, h => by
    by_cases hde : d = '_' ∧ e = '_'
    · simp only [replDD, if_pos hde] at h
      rcases List.mem_cons.mp h with h1 | h1
      · subst h1
        simp [hde.1]
      · have := replDD_mem rest c h1
        simp [this]
    · simp only [replDD, if_neg hde] at h
      rcases List.mem_cons.mp h with h1 | h1
      · simp [h1]
      · have := replDD_mem (e :: rest) c h1
        simp only [List.mem_cons] at this ⊢
        tauto

theorem collapseDD_mem (fuel : Nat) : ∀ (s : Txt) (c : Char), c ∈ collapseDD fuel s → c ∈ s := by
  induction fuel with
  | zero =>
    intro s c h
    simpa [collapseDD] using h
  | succ n ih =>
    intro s c h
    simp only [collapseDD] at h
    by_cases hs : hasDD s = true
    · rw [if_pos hs] at h
      exact replDD_mem s c (ih _ c h)
    · rw [if_neg hs] at h
      exact h

theorem collapseDD_noDD (fuel : Nat) : ∀ s : Txt, s.length ≤ fuel → hasDD (collapseDD fuel s) = false := by
  induction fuel with
  | zero =>
    intro s h
    have hs : s = [] := List.length_eq_zero.mp (Nat.le_zero.mp h)
    subst hs
    simp [collapseDD, hasDD]
  | succ n ih =>
    intro s h
    simp only [collapseDD]
    by_cases hs : hasDD s = true
    · rw [if_pos hs]
      refine ih _ ?_
      have := replDD_length_lt s hs
      omega
    · rw [if_neg hs]
      exact Bool.eq_false_iff.mpr hs

theorem collapse_noDD (s : Txt) : hasDD (collapse s) = false :=
  collapseDD_noDD s.length s le_rfl

theorem collapse_of_noDD (s : Txt) (h : hasDD s = false) : collapse s = s := by
  have step : ∀ fuel, collapseDD fuel s = s := by
    intro fuel
    cases fuel with
    | zero => rfl
    | succ n => simp [collapseDD, h]
  exact step _

theorem collapse_mem (s : Txt) (c : Char) (h : c ∈ collapse s) : c ∈ s :=
  collapseDD_mem _ _ _ h

/-! ### Python strip behaviour -/

theorem head?_dropWhile_false (p : Char → Bool) :
    ∀ (l : Txt) (a : Char), (l.dropWhile p).head? = some a → p a = false
  | [], a, h => by simp at h
  | c :: rest, a, h => by
    by_cases hc : p c
    · rw [List.dropWhile_cons_of_pos hc] at h
      exact head?_dropWhile_false p rest a h
    · rw [List.dropWhile_cons_of_neg hc] at h
      simp at h
      subst h
      exact Bool.eq_false_iff.mpr hc

theorem dropWhile_eq_self_of_head (p : Char → Bool) (s : Txt)
    (h : ∀ a, s.head? = some a → p a = false) : s.dropWhile p = s := by
  cases s with
  | nil => simp
  | cons c cs =>
    have hc : p c = false := h c (by simp)
    rw [List.dropWhile_cons_of_neg (by simp [hc])]

theorem dropTrailingWhile_head? (p : Char → Bool) (t : Txt) :
    dropTrailingWhile p t = [] ∨ (dropTrailingWhile p t).head? = t.head? := by
  unfold dropTrailingWhile
  rcases List.dropWhile_suffix p (l := t.reverse) with ⟨v, hv⟩
  by_cases hnil : t.reverse.dropWhile p = []
  · left
    simp [hnil]
  · right
    have ht : t = (t.reverse.dropWhile p).reverse ++ v.reverse := by
      have := congrArg List.reverse hv
      simpa [List.reverse_append] using this.symm
    obtain ⟨a, ha⟩ : ∃ a, (t.reverse.dropWhile p).reverse.head? = some a := by
      cases hu : (t.reverse.dropWhile p).reverse with
      | nil =>
        exfalso
        apply hnil
        have := congrArg List.reverse hu
        simpa using this
      | cons x xs => exact ⟨x, by simp [hu]⟩
    conv_rhs => rw [ht]
    rw [List.head?_append, ha, Option.or_some]

theorem dropTrailingWhile_getLast? (p : Char → Bool) (t : Txt) (a : Char)
    (h : (dropTrailingWhile p t).getLast? = some a) : p a = false := by
  unfold dropTrailingWhile at h
  rw [List.getLast?_reverse] at h
  exact head?_dropWhile_false p _ _ h

theorem dropTrailingWhile_eq_self (p : Char → Bool) (t : Txt)
    (h : ∀ a, t.getLast? = some a → p a = false) : dropTrailingWhile p t = t := by
  unfold dropTrailingWhile
  have hd : t.reverse.dropWhile p = t.reverse := by
    apply dropWhile_eq_self_of_head
    intro a ha
    rw [List.head?_reverse] at ha
    exact h a ha
  rw [hd, List.reverse_reverse]

theorem dropTrailingWhile_mem (p : Char → Bool) (t : Txt) (c : Char)
    (h : c ∈ dropTrailingWhile p t) : c ∈ t := by
  unfold dropTrailingWhile at h
  rw [List.mem_reverse] at h
  have := (List.dropWhile_sublist (l := t.reverse) p).subset h
  rwa [List.mem_reverse] at this

theorem stripU_head? (s : Txt) (a : Char) (h : (stripU s).head? = some a) :
    a ≠ '_' := by
  unfold stripU at h
  rcases dropTrailingWhile_head? (fun c => c = '_') (s.dropWhile fun c => c = '_') with hnil | hh
  · rw [hnil] at h
    simp at h
  · rw [hh] at h
    have := head?_dropWhile_false (fun c => c = '_') s a h
    simpa using this

theorem stripU_getLast? (s : Txt) (a : Char) (h : (stripU s).getLast? = some a) :
    a ≠ '_' := by
  unfold stripU at h
  have := dropTrailingWhile_getLast? _ _ _ h
  simpa using this

theorem stripU_eq_self (s : Txt) (h1 : ∀ a, s.head? = some a → a ≠ '_')
    (h2 : ∀ a, s.getLast? = some a → a ≠ '_') : stripU s = s := by
  unfold stripU
  have hd : s.dropWhile (fun c => c = '_') = s := by
    apply dropWhile_eq_self_of_head
    intro a ha
    simpa using h1 a ha
  rw [hd]
  apply dropTrailingWhile_eq_self
  intro a ha
  simpa using h2 a ha

theorem stripU_mem (s : Txt) (c : Char) (h : c ∈ stripU s) : c ∈ s := by
  unfold stripU at h
  have := dropTrailingWhile_mem _ _ _ h
  exact (List.dropWhile_sublist _).subset this

theorem stripU_noDD (s : Txt) (h : hasDD s = false) : hasDD (stripU s) = false := by
  unfold stripU
  exact hasDD_dropTrailingWhile_false _ _ (hasDD_dropWhile_false _ _ h)

/-! ### Shape of sanitized column names -/

theorem cleanStage4_ne_nil (s : Txt) : cleanStage4 s ≠ [] := by
  unfold cleanStage4
  by_cases h : cleanStage3 s = []
  · simp [h, unnamedColumn]
  · simp [h]

theorem cleanStage6_ne_nil (s : Txt) : cleanStage6 s ≠ [] := by
  unfold cleanStage6
  by_cases h : cleanStage5 s = []
  · simp [h, unnamedColumn]
  · simp [h]

theorem unnamedColumn_no_invalid : ∀ c ∈ unnamedColumn, c ∉ invalidChars := by
  decide

theorem cleanStage3_no_invalid (s : Txt) : ∀ c ∈ cleanStage3 s, c ∉ invalidChars := by
  intro c hc
  unfold cleanStage3 at hc
  exact removeInvalid_no_invalid s c (collapse_mem _ c (stripU_mem _ c hc))

theorem cleanStage6_no_invalid (s : Txt) : ∀ c ∈ cleanStage6 s, c ∉ invalidChars := by
  intro c hc
  unfold cleanStage6 at hc
  by_cases h : cleanStage5 s = []
  · rw [if_pos h] at hc
    exact unnamedColumn_no_invalid c hc
  · rw [if_neg h] at hc
    unfold cleanStage5 at hc
    have := (List.dropWhile_sublist _).subset (stripU_mem _ c hc)
    unfold cleanStage4 at this
    by_cases h3 : cleanStage3 s = []
    · rw [if_pos h3] at this
      exact unnamedColumn_no_invalid c this
    · rw [if_neg h3] at this
      exact cleanStage3_no_invalid s c this

theorem cleanColumnName_no_invalid (s : Txt) :
    ∀ c ∈ cleanColumnName s, c ∉ invalidChars := by
  intro c hc
  unfold cleanColumnName at hc
  by_cases h : 50 < (cleanStage6 s).length
  · rw [if_pos h] at hc
    exact cleanStage6_no_invalid s c ((List.take_sublist _ _).subset hc)
  · rw [if_neg h] at hc
    exact cleanStage6_no_invalid s c hc

theorem unnamedColumn_noDD : hasDD unnamedColumn = false := by decide

theorem cleanStage3_noDD (s : Txt) : hasDD (cleanStage3 s) = false := by
  unfold cleanStage3
  exact stripU_noDD _ (collapse_noDD _)

theorem cleanStage6_noDD (s : Txt) : hasDD (cleanStage6 s) = false := by
  unfold cleanStage6
  by_cases h : cleanStage5 s = []
  · rw [if_pos h]
    exact unnamedColumn_noDD
  · rw [if_neg h]
    unfold cleanStage5
    apply stripU_noDD
    apply hasDD_dropWhile_false
    unfold cleanStage4
    by_cases h3 : cleanStage3 s = []
    · rw [if_pos h3]
      exact unnamedColumn_noDD
    · rw [if_neg h3]
      exact cleanStage3_noDD s

theorem cleanColumnName_noDD (s : Txt) : hasDD (cleanColumnName s) = false := by
  unfold cleanColumnName
  by_cases h : 50 < (cleanStage6 s).length
  · rw [if_pos h]
    exact hasDD_take_false _ _ (cleanStage6_noDD s)
  · rw [if_neg h]
    exact cleanStage6_noDD s

theorem cleanStage6_head (s : Txt) (a : Char) (h : (cleanStage6 s).head? = some a) :
    a ≠ '_' := by
  unfold cleanStage6 at h
  by_cases h5 : cleanStage5 s = []
  · rw [if_pos h5] at h
    intro ha
    subst ha
    revert h
    decide
  · rw [if_neg h5] at h
    exact stripU_head? _ a h

theorem cleanStage6_getLast (s : Txt) (a : Char)
    (h : (cleanStage6 s).getLast? = some a) : a ≠ '_' := by
  unfold cleanStage6 at h
  by_cases h5 : cleanStage5 s = []
  · rw [if_pos h5] at h
    intro ha
    subst ha
    revert h
    decide
  · rw [if_neg h5] at h
    exact stripU_getLast? _ a h

theorem cleanColumnName_head (s : Txt) (a : Char)
    (h : (cleanColumnName s).head? = some a) : a ≠ '_' := by
  unfold cleanColumnName at h
  by_cases h50 : 50 < (cleanStage6 s).length
  · rw [if_pos h50, List.head?_take, if_neg (by omega)] at h
    exact cleanStage6_head s a h
  · rw [if_neg h50] at h
    exact cleanStage6_head s a h

theorem cleanColumnName_ne_nil (s : Txt) : cleanColumnName s ≠ [] := by
  unfold cleanColumnName
  by_cases h50 : 50 < (cleanStage6 s).length
  · rw [if_pos h50]
    intro h
    have hlen : (List.take 50 (cleanStage6 s)).length = ([] : Txt).length :=
      congrArg List.length h
    rw [List.length_take] at hlen
    simp only [List.length_nil] at hlen
    omega
  · rw [if_neg h50]
    exact cleanStage6_ne_nil s

theorem cleanColumnName_length_le (s : Txt) : (cleanColumnName s).length ≤ 50 := by
  unfold cleanColumnName
  by_cases h50 : 50 < (cleanStage6 s).length
  · rw [if_pos h50]
    simp [List.length_take]
  · rw [if_neg h50]
    omega

/-- The ASCII identifier class `[A-Za-z0-9_]` of the spec. -/
def isWordChar (c : Char) : Bool := c.isAlphanum || c = '_'

/-- Sanitization is a fixpoint on its own output as long as that output does
not begin with an ASCII digit and does not end with an underscore. -/
theorem cleanColumnName_idem (x : Txt)
    (hd : ∀ a, (cleanColumnName x).head? = some a → a.isDigit = false)
    (hl : (cleanColumnName x).getLast? ≠ some '_') :
    cleanColumnName (cleanColumnName x) = cleanColumnName x := by
  have h1 : removeInvalid (cleanColumnName x) = cleanColumnName x :=
    removeInvalid_of_clean _ (cleanColumnName_no_invalid x)
  have h2 : collapse (cleanColumnName x) = cleanColumnName x :=
    collapse_of_noDD _ (cleanColumnName_noDD x)
  have hlast : ∀ a, (cleanColumnName x).getLast? = some a → a ≠ '_' := by
    intro a ha hEq
    subst hEq
    exact hl ha
  have h3 : stripU (cleanColumnName x) = cleanColumnName x :=
    stripU_eq_self _ (cleanColumnName_head x) hlast
  have hs3 : cleanStage3 (cleanColumnName x) = cleanColumnName x := by
    unfold cleanStage3
    rw [h1, h2, h3]
  have hs4 : cleanStage4 (cleanColumnName x) = cleanColumnName x := by
    unfold cleanStage4
    rw [hs3, if_neg (cleanColumnName_ne_nil x)]
  have h6 : (cleanColumnName x).dropWhile Char.isDigit = cleanColumnName x := by
    apply dropWhile_eq_self_of_head
    exact hd
  have hs5 : cleanStage5 (cleanColumnName x) = cleanColumnName x := by
    unfold cleanStage5
    rw [hs4, h6, h3]
  have hs6 : cleanStage6 (cleanColumnName x) = cleanColumnName x := by
    unfold cleanStage6
    rw [hs5, if_neg (cleanColumnName_ne_nil x)]
  have hfinal : cleanColumnName (cleanColumnName x)
      = if 50 < (cleanStage6 (cleanColumnName x)).length
        then (cleanStage6 (cleanColumnName x)).take 50
        else cleanStage6 (cleanColumnName x) := rfl
  rw [hfinal, hs6, if_neg (by have := cleanColumnName_length_le x; omega)]

/-- Claim C4, counterexample: `clean_column_name` does not replace every
character outside `[A-Za-z0-9_]`.  The Cyrillic input `"цена"` is returned
unchanged, and `'ц'` is outside the class. -/
theorem claim4_counterexample :
    cleanColumnName (String.toList "цена") = String.toList "цена" ∧
    'ц' ∈ cleanColumnName (String.toList "цена") ∧
    isWordChar 'ц' = false := by decide

/-- Claim C4 (amended): the sanitizer replaces only the characters of its
fixed `invalid_chars` list with `'_'` (so none of those characters survives),
collapses runs of `'_'`, never returns a string beginning with `'_'`, and
always returns a non-empty result; characters outside the fixed list — such
as Cyrillic letters — are preserved rather than replaced. -/
theorem claim4_amended (s : Txt) :
    cleanColumnName s ≠ [] ∧
    (∀ c ∈ cleanColumnName s, c ∉ invalidChars) ∧
    hasDD (cleanColumnName s) = false ∧
    (∀ a, (cleanColumnName s).head? = some a → a ≠ '_') :=
  ⟨cleanColumnName_ne_nil s, cleanColumnName_no_invalid s, cleanColumnName_noDD s,
   cleanColumnName_head s⟩

/-- Claim C4 witness: the amended statement evaluated on a concrete header. -/
theorem claim4_amended_witness :
    cleanColumnName (String.toList "Цена (руб.)") ≠ [] ∧
    hasDD (cleanColumnName (String.toList "Цена (руб.)")) = false :=
  ⟨(claim4_amended (String.toList "Цена (руб.)")).1,
   (claim4_amended (String.toList "Цена (руб.)")).2.2.1⟩

/-- Claim C5, counterexample: sanitization is not idempotent.
`clean_column_name("1_2")` is `"2"` (digit stripping then underscore
stripping exposes a digit), but sanitizing `"2"` again yields
`"unnamed_column"`. -/
theorem claim5_counterexample :
    cleanColumnName (cleanColumnName (String.toList "1_2")) ≠
      cleanColumnName (String.toList "1_2") ∧
    cleanColumnName (String.toList "1_2") = String.toList "2" ∧
    cleanColumnName (cleanColumnName (String.toList "1_2")) =
      String.toList "unnamed_column" := by decide

/-- Claim C5 (amended): `clean_column_name` is idempotent on every input
whose sanitized form neither begins with an ASCII digit (which a second run
would strip) nor ends with `'_'` (which only the final 50-character
truncation can produce, and which a second run would strip). -/
theorem claim5_amended (x : Txt)
    (hd : ∀ a, (cleanColumnName x).head? = some a → a.isDigit = false)
    (hl : (cleanColumnName x).getLast? ≠ some '_') :
    cleanColumnName (cleanColumnName x) = cleanColumnName x :=
  cleanColumnName_idem x hd hl

/-- Claim C5 witness: the amended statement evaluated on `"a b"`, whose
sanitized form `"a_b"` starts with `'a'` and ends with `'b'`. -/
theorem claim5_witness :
    cleanColumnName (cleanColumnName (String.toList "a b")) =
      cleanColumnName (String.toList "a b") := by
  apply claim5_amended
  · intro a ha
    have hh : (cleanColumnName (String.toList "a b")).head? = some 'a' := by decide
    rw [hh] at ha
    cases ha
    decide
  · decide

/-! ## clean_column_name with a collision set (merge_pricelists.py lines 407-414) -/

/-- Decimal rendering of a natural number (Python `f"{counter}"`), with fuel;
fuel `n + 1` always suffices because the value shrinks tenfold per step. -/
def natToCharsF : Nat → Nat → Txt
  | 0, _ => []
  | fuel + 1, n =>
    if n < 10 then [Char.ofNat (48 + n)]
    else natToCharsF fuel (n / 10) ++ [Char.ofNat (48 + n % 10)]

/-- Decimal rendering of a natural number. -/
def natToChars (n : Nat) : Txt := natToCharsF (n + 1) n

theorem natToCharsF_congr : ∀ (f : Nat), ∀ (g n : Nat), n < f → n < g →
    natToCharsF f n = natToCharsF g n := by
  intro f
  induction f with
  | zero => intro g n hf _; omega
  | succ f ih =>
    intro g n hf hg
    cases g with
    | zero => omega
    | succ g =>
      simp only [natToCharsF]
      by_cases h : n < 10
      · simp [h]
      · rw [if_neg h, if_neg h]
        have hdiv : n / 10 < n := Nat.div_lt_self (by omega) (by omega)
        rw [ih g (n / 10) (by omega) (by omega)]

/-- One-step unfolding of the decimal rendering. -/
theorem natToChars_eq (n : Nat) :
    natToChars n = if n < 10 then [Char.ofNat (48 + n)]
      else natToChars (n / 10) ++ [Char.ofNat (48 + n % 10)] := by
  unfold natToChars
  rw [natToCharsF]
  by_cases h : n < 10
  · simp [h]
  · rw [if_neg h, if_neg h]
    have hdiv : n / 10 < n := Nat.div_lt_self (by omega) (by omega)
    rw [natToCharsF_congr n (n / 10 + 1) (n / 10) (by omega) (by omega)]

theorem natToChars_ne_nil (n : Nat) : natToChars n ≠ [] := by
  rw [natToChars_eq]
  by_cases h : n < 10 <;> simp [h]

theorem digit_char_inj (i j : Nat) (hi : i < 10) (hj : j < 10)
    (h : Char.ofNat (48 + i) = Char.ofNat (48 + j)) : i = j := by
  interval_cases i <;> interval_cases j <;> revert h <;> decide

theorem natToChars_inj (a : Nat) : ∀ b, natToChars a = natToChars b → a = b := by
  induction a using Nat.strong_induction_on with
  | _ a ih =>
    intro b h
    rw [natToChars_eq a, natToChars_eq b] at h
    by_cases ha : a < 10 <;> by_cases hb : b < 10
    · rw [if_pos ha, if_pos hb] at h
      simp at h
      exact digit_char_inj a b ha hb h
    · rw [if_pos ha, if_neg hb] at h
      have hlen := congrArg List.length h
      simp only [List.length_append, List.length_cons, List.length_nil] at hlen
      have h0 : (natToChars (b / 10)).length = 0 := by omega
      exact absurd (List.length_eq_zero.mp h0) (natToChars_ne_nil _)
    · rw [if_neg ha, if_pos hb] at h
      have hlen := congrArg List.length h
      simp only [List.length_append, List.length_cons, List.length_nil] at hlen
      have h0 : (natToChars (a / 10)).length = 0 := by omega
      exact absurd (List.length_eq_zero.mp h0) (natToChars_ne_nil _)
    · rw [if_neg ha, if_neg hb] at h
      obtain ⟨h1, h2⟩ := List.append_inj' h (by simp)
      simp at h2
      have hmod : a % 10 = b % 10 :=
        digit_char_inj _ _ (Nat.mod_lt _ (by omega)) (Nat.mod_lt _ (by omega)) h2
      have hdiv : a / 10 = b / 10 :=
        ih (a / 10) (Nat.div_lt_self (by omega) (by omega)) (b / 10) h1
      omega

/-- `f"{original_name}_{counter}"` (line 412). -/
def underscoreSuffix (base : Txt) (k : Nat) : Txt :=
  base ++ '_' :: natToChars k

theorem underscoreSuffix_inj (base : Txt) : Function.Injective (underscoreSuffix base) := by
  intro j k h
  unfold underscoreSuffix at h
  have h2 := List.append_cancel_left h
  simp at h2
  exact natToChars_inj j k h2

theorem underscoreSuffix_ne_base (base : Txt) (k : Nat) :
    underscoreSuffix base k ≠ base := by
  intro h
  have hlen := congrArg List.length h
  simp [underscoreSuffix] at hlen

/-- The `while column_name in existing_columns` loop (lines 410-413), with
fuel: try `base_1`, `base_2`, … until a candidate is not in `used`. -/
def findFree (base : Txt) (used : Finset Txt) : Nat → Nat → Txt
  | 0, _ => base
  | fuel + 1, counter =>
    if underscoreSuffix base counter ∈ used then findFree base used fuel (counter + 1)
    else underscoreSuffix base counter

/-- The name chosen by `clean_column_name` when an `existing_columns` set is
supplied: the sanitized base if it is free, otherwise the first free
`base_k`.  Fuel `used.card + 1` is enough: among `base_1 … base_(card+1)`
at least one candidate is not in `used`. -/
def cleanChoice (s : Txt) (used : Finset Txt) : Txt :=
  if cleanColumnName s ∈ used then
    findFree (cleanColumnName s) used (used.card + 1) 1
  else cleanColumnName s

/-- `clean_column_name` with an `existing_columns` set (lines 370-416): the
chosen name together with the updated set (`existing_columns.add`, line 414 —
a caller-visible side effect). -/
def cleanColumnNameWith (s : Txt) (used : Finset Txt) : Txt × Finset Txt :=
  (cleanChoice s used, insert (cleanChoice s used) used)

theorem findFree_not_mem (base : Txt) (used : Finset Txt) :
    ∀ (fuel counter : Nat),
      (∃ k, counter ≤ k ∧ k < counter + fuel ∧ underscoreSuffix base k ∉ used) →
      findFree base used fuel counter ∉ used := by
  intro fuel
  induction fuel with
  | zero =>
    rintro counter ⟨k, h1, h2, _⟩
    omega
  | succ n ih =>
    rintro counter ⟨k, h1, h2, h3⟩
    simp only [findFree]
    by_cases hc : underscoreSuffix base counter ∈ used
    · rw [if_pos hc]
      apply ih
      refine ⟨k, ?_, by omega, h3⟩
      rcases Nat.eq_or_lt_of_le h1 with rfl | hlt
      · exact absurd hc h3
      · omega
    · rw [if_neg hc]
      exact hc

theorem exists_fresh_suffix (base : Txt) (used : Finset Txt) :
    ∃ k, 1 ≤ k ∧ k < 1 + (used.card + 1) ∧ underscoreSuffix base k ∉ used := by
  by_contra hcon
  push_neg at hcon
  have hsub : (Finset.Icc 1 (used.card + 1)).image (underscoreSuffix base) ⊆ used := by
    intro x hx
    rcases Finset.mem_image.mp hx with ⟨k, hk, rfl⟩
    rw [Finset.mem_Icc] at hk
    exact hcon k hk.1 (by omega)
  have hcard : (Finset.Icc 1 (used.card + 1)).card = used.card + 1 := by
    rw [Nat.card_Icc]
    omega
  have himg := Finset.card_image_of_injective
    (Finset.Icc 1 (used.card + 1)) (underscoreSuffix_inj base)
  have hle := Finset.card_le_card hsub
  rw [himg, hcard] at hle
  omega

theorem cleanChoice_not_mem (s : Txt) (used : Finset Txt) :
    cleanChoice s used ∉ used := by
  unfold cleanChoice
  by_cases hb : cleanColumnName s ∈ used
  · rw [if_pos hb]
    exact findFree_not_mem _ _ _ _ (exists_fresh_suffix _ _)
  · rw [if_neg hb]
    exact hb

theorem findFree_shape (base : Txt) (used : Finset Txt) :
    ∀ (fuel counter : Nat), findFree base used fuel counter = base ∨
      ∃ k, counter ≤ k ∧ findFree base used fuel counter = underscoreSuffix base k := by
  intro fuel
  induction fuel with
  | zero =>
    intro counter
    left
    rfl
  | succ n ih =>
    intro counter
    simp only [findFree]
    by_cases hc : underscoreSuffix base counter ∈ used
    · rw [if_pos hc]
      rcases ih (counter + 1) with h | ⟨k, hk, h⟩
      · left; exact h
      · right; exact ⟨k, by omega, h⟩
    · rw [if_neg hc]
      right
      exact ⟨counter, le_rfl, rfl⟩

/-- The chosen name is the sanitized base or a numbered variant of it. -/
theorem cleanChoice_shape (s : Txt) (used : Finset Txt) :
    cleanChoice s used = cleanColumnName s ∨
      ∃ k, 1 ≤ k ∧ cleanChoice s used = underscoreSuffix (cleanColumnName s) k := by
  unfold cleanChoice
  by_cases hb : cleanColumnName s ∈ used
  · rw [if_pos hb]
    rcases findFree_shape (cleanColumnName s) used (used.card + 1) 1 with h | ⟨k, hk, h⟩
    · left; exact h
    · right; exact ⟨k, hk, h⟩
  · rw [if_neg hb]
    left
    rfl

/-- Claim C6: for two raw names sanitized sequentially against the same
`existing_columns` set, with distinct raw forms but colliding sanitized
bases, the sanitizer returns two distinct names; each chosen name is either
the base or a `_k`-suffixed variant (`k ≥ 1`); each chosen name is recorded
into the set, which only grows. -/
theorem claim6_collision_distinct (x y : Txt) (s0 : Finset Txt)
    (_hxy : x ≠ y) (_hcol : cleanColumnName x = cleanColumnName y) :
    (cleanColumnNameWith x s0).1 ≠
      (cleanColumnNameWith y (cleanColumnNameWith x s0).2).1 ∧
    (cleanColumnNameWith x s0).1 ∈ (cleanColumnNameWith x s0).2 ∧
    (cleanColumnNameWith y (cleanColumnNameWith x s0).2).1 ∈
      (cleanColumnNameWith y (cleanColumnNameWith x s0).2).2 ∧
    s0 ⊆ (cleanColumnNameWith x s0).2 ∧
    (cleanColumnNameWith x s0).2 ⊆ (cleanColumnNameWith y (cleanColumnNameWith x s0).2).2 ∧
    ((cleanColumnNameWith y (cleanColumnNameWith x s0).2).1 = cleanColumnName y ∨
      ∃ k, 1 ≤ k ∧ (cleanColumnNameWith y (cleanColumnNameWith x s0).2).1 =
        underscoreSuffix (cleanColumnName y) k) := by
  refine ⟨?_, ?_, ?_, ?_, ?_, ?_⟩
  · intro hEq
    apply cleanChoice_not_mem y (cleanColumnNameWith x s0).2
    show cleanChoice y (cleanColumnNameWith x s0).2 ∈ insert (cleanChoice x s0) s0
    have : cleanChoice x s0 = cleanChoice y (cleanColumnNameWith x s0).2 := hEq
    rw [← this]
    exact Finset.mem_insert_self _ _
  · exact Finset.mem_insert_self _ _
  · exact Finset.mem_insert_self _ _
  · exact Finset.subset_insert _ _
  · exact Finset.subset_insert _ _
  · exact cleanChoice_shape y (cleanColumnNameWith x s0).2

/-- Claim C6 witness: `"a-b"` and `"a.b"` both sanitize to `"a_b"`; run
sequentially against one set they yield distinct names. -/
theorem claim6_witness :
    (cleanColumnNameWith (String.toList "a-b") ∅).1 ≠
      (cleanColumnNameWith (String.toList "a.b")
        (cleanColumnNameWith (String.toList "a-b") ∅).2).1 :=
  (claim6_collision_distinct (String.toList "a-b") (String.toList "a.b") ∅
    (by decide) (by decide)).1

/-! ## get_safe_table_name (merge_pricelists.py lines 138-174) -/

/-- The `"CSV"` sentinel sheet name. -/
def csvSentinel : Txt := String.toList "CSV"

/-- The placeholder used when sanitizing a table name yields nothing. -/
def unnamedTable : Txt := String.toList "unnamed_table"

/-- `re.sub(r'_+', '_', ...)`: collapse every run of underscores to one. -/
def collapseRuns : Txt → Txt
  | [] => []
  | [c] => [c]
  | c :: d :: rest =>
    if c = '_' ∧ d = '_' then collapseRuns (d :: rest)
    else c :: collapseRuns (d :: rest)

/-- The base name of the table (lines 141-147): the file stem, with
`_sheet` appended when a sheet name is present, non-empty and not the
`"CSV"` sentinel.  Extracting the stem from the path (`Path(...).stem`) is
the file-system collaborator; the function takes the stem directly. -/
def tableBaseName (stem : Txt) (sheet : Option Txt) : Txt :=
  match sheet with
  | some s => if s ≠ [] ∧ s ≠ csvSentinel then stem ++ '_' :: s else stem
  | none => stem

/-- State of `table_name` after lines 150-156: every character outside
`[a-zA-Z0-9_]` replaced with `_` (`re.sub(r'[^a-zA-Z0-9_]', '_', ...)`),
underscore runs collapsed, underscores stripped from both ends. -/
def tableStage3 (stem : Txt) (sheet : Option Txt) : Txt :=
  stripU (collapseRuns ((tableBaseName stem sheet).map
    (fun c => if isWordChar c then c else '_')))

/-- State after stripping leading ASCII digits and stripping underscores
again (lines 159-160). -/
def tableStage4 (stem : Txt) (sheet : Option Txt) : Txt :=
  stripU ((tableStage3 stem sheet).dropWhile Char.isDigit)

/-- State after the 50-character truncation (lines 163-164). -/
def tableStage5 (stem : Txt) (sheet : Option Txt) : Txt :=
  if 50 < (tableStage4 stem sheet).length then (tableStage4 stem sheet).take 50
  else tableStage4 stem sheet

/-- State after the emptiness fallback (lines 167-168). -/
def tableStage6 (stem : Txt) (sheet : Option Txt) : Txt :=
  if tableStage5 stem sheet = [] then unnamedTable else tableStage5 stem sheet

/-- `get_safe_table_name` (lines 138-174): the staged sanitization above,
then a `table_` prefix when the name still starts with a digit
(lines 171-172). -/
def getSafeTableName (stem : Txt) (sheet : Option Txt) : Txt :=
  if ((tableStage6 stem sheet).head?.map Char.isDigit).getD false
  then String.toList "table_" ++ tableStage6 stem sheet
  else tableStage6 stem sheet

theorem collapseRuns_mem : ∀ (s : Txt) (c : Char), c ∈ collapseRuns s → c ∈ s
  | [], c, h => by simp [collapseRuns] at h
  | [d], c, h => by
    simp [collapseRuns] at h
    simp [h]
  | d :: e :: rest, c, h => by
    by_cases hde : d = '_' ∧ e = '_'
    · simp only [collapseRuns, if_pos hde] at h
      have := collapseRuns_mem (e :: rest) c h
      simp only [List.mem_cons] at this ⊢
      tauto
    · simp only [collapseRuns, if_neg hde] at h
      rcases List.mem_cons.mp h with h1 | h1
      · simp [h1]
      · have := collapseRuns_mem (e :: rest) c h1
        simp only [List.mem_cons] at this ⊢
        tauto

/-- Claim C7: a source file whose stem consists entirely of characters
outside `[A-Za-z0-9_]`, with no sheet name or the `"CSV"` sentinel sheet,
resolves to the placeholder table name `unnamed_table`. -/
theorem claim7_placeholder_table_name (stem : Txt) (sheet : Option Txt)
    (hstem : ∀ c ∈ stem, isWordChar c = false)
    (hsheet : sheet = none ∨ sheet = some csvSentinel) :
    getSafeTableName stem sheet = unnamedTable := by
  have hbase : tableBaseName stem sheet = stem := by
    rcases hsheet with rfl | rfl
    · rfl
    · simp [tableBaseName]
  have hmap : ∀ c ∈ stem.map (fun c => if isWordChar c then c else '_'), c = '_' := by
    intro c hc
    rcases List.mem_map.mp hc with ⟨d, hd, hdc⟩
    rw [hstem d hd] at hdc
    simp at hdc
    exact hdc.symm
  have h3 : tableStage3 stem sheet = [] := by
    unfold tableStage3
    rw [hbase]
    unfold stripU
    have hdw : (collapseRuns (stem.map (fun c => if isWordChar c then c else '_'))).dropWhile
        (fun c => c = '_') = [] := by
      rw [List.dropWhile_eq_nil_iff]
      intro c hc
      simp [hmap c (collapseRuns_mem _ c hc)]
    rw [hdw]
    rfl
  have h4 : tableStage4 stem sheet = [] := by
    unfold tableStage4
    rw [h3]
    rfl
  have h5 : tableStage5 stem sheet = [] := by
    unfold tableStage5
    rw [h4]
    rfl
  have h6 : tableStage6 stem sheet = unnamedTable := by
    unfold tableStage6
    rw [h5, if_pos rfl]
  unfold getSafeTableName
  rw [h6]
  rw [if_neg (by decide)]

/-- Claim C7 witness: the stem `"прайс!"` (every character outside the
identifier class) with the `"CSV"` sentinel sheet resolves to the
placeholder. -/
theorem claim7_witness :
    getSafeTableName (String.toList "прайс!") (some csvSentinel) = unnamedTable :=
  claim7_placeholder_table_name (String.toList "прайс!") (some csvSentinel)
    (by decide) (Or.inr rfl)

/-! ## detect_data_start_row (merge_pricelists.py lines 418-512) -/

/-- Python `str.lower()` restricted to the scripts that occur in this
pipeline: ASCII `A-Z` and Cyrillic `А-Я`/`Ё`.  Other characters are
unchanged. -/
def pyLower (c : Char) : Char :=
  if 'A' ≤ c ∧ c ≤ 'Z' then Char.ofNat (c.toNat + 32)
  else if 'А' ≤ c ∧ c ≤ 'Я' then Char.ofNat (c.toNat + 32)
  else if c = 'Ё' then 'ё'
  else c

/-- Python whitespace stripped by `str.strip()` with no arguments. -/
def isPyWs (c : Char) : Bool :=
  c == ' ' || c == '\t' || c == '\n' || c == '\r' || c.toNat == 11 || c.toNat == 12

/-- Python `s.strip()`. -/
def pyStrip (s : Txt) : Txt :=
  dropTrailingWhile isPyWs (s.dropWhile isPyWs)

/-- `t` is a prefix of `v`. -/
def prefixMatch : Txt → Txt → Bool
  | [], _ => true
  | _ :: _, [] => false
  | a :: t, b :: v => a == b && prefixMatch t v

/-- Python `t in v`: `t` occurs contiguously in `v`. -/
def containsSub (t : Txt) : Txt → Bool
  | [] => t.isEmpty
  | c :: rest => prefixMatch t (c :: rest) || containsSub t rest

/-- The `typical_headers` vocabulary (lines 426-449), in source order
(including the duplicated `"шт"`). -/
def typicalHeaders : List Txt :=
  ["артикул", "наименование", "название", "код", "номер", "цена", "стоимость",
   "количество", "ед", "шт", "руб", "usd", "eur", "category", "категория",
   "partnumber", "описание", "характеристики", "вес", "объем", "номенклатура",
   "заказ", "товар", "продукт", "изделие", "модель", "марка", "бренд",
   "производитель", "поставщик", "материал", "цвет", "размер", "длина",
   "ширина", "высота", "диаметр", "мощность", "напряжение", "ток",
   "частота", "температура", "давление", "скорость", "время", "дата",
   "сумма", "итого", "скидка", "наценка", "налог", "пошлина",
   "доставка", "упаковка", "гарантия", "сервис", "обслуживание",
   "кг", "г", "л", "мл", "м", "см", "мм", "кв.м", "куб.м",
   "шт", "компл", "упак", "пачка", "коробка", "ящик", "мешок",
   "статус", "состояние", "наличие", "остаток", "склад", "место",
   "адрес", "контакт", "телефон", "email", "сайт", "информация"].map String.toList

/-- The `strong_headers` vocabulary (line 466). -/
def strongHeaders : List Txt :=
  ["заказ", "название", "артикул", "код", "цена", "номенклатура"].map String.toList

/-- The `service_words` boilerplate vocabulary (lines 478-484). -/
def serviceWords : List Txt :=
  ["электрорешения", "устойчивого", "будущего", "калькуляторы", "конфигураторы",
   "артикулов", "собственных", "производственных", "комплекса", "итого",
   "зеленый", "цвет", "наименования", "позиция", "ожидается", "указанную",
   "дату", "оранжевый", "новинки", "экспресс", "доставка", "отфильтруйте",
   "непустые", "значения", "полю", "ims", "нажмите", "загрузить", "xls"].map String.toList

/-- Whether a cell is a non-null string containing some term from `terms`
as a substring of its lowercased, stripped value (the inner
`for header in ...: if header in val_lower: ...; break` loops). -/
def cellMatches (terms : List Txt) : Cell → Bool
  | Cell.str s => terms.any (fun t => containsSub t (pyStrip (s.map pyLower)))
  | _ => false

/-- Number of cells of the row matching some term of `terms` (each cell
counts at most once, as the Python loop breaks after the first term). -/
def rowMatchCount (terms : List Txt) (row : List Cell) : Nat :=
  (row.filter (cellMatches terms)).length

/-- `found_headers` for one row (lines 452-462). -/
def foundHeaders (row : List Cell) : Nat := rowMatchCount typicalHeaders row

/-- `strong_matches` for one row (lines 467-475). -/
def strongMatches (row : List Cell) : Nat := rowMatchCount strongHeaders row

/-- `service_count` for one row (lines 486-493). -/
def serviceCount (row : List Cell) : Nat := rowMatchCount serviceWords row

/-- The scan loop of `detect_data_start_row` (lines 422-504): skip a row
when its boilerplate count exceeds 2, accept when `found_headers >= 3` or
`strong_matches >= 2`, otherwise continue; return 0 when the rows are
exhausted (line 508). -/
def detectGo : List (List Cell) → Nat → Nat
  | [], _ => 0
  | row :: rest, i =>
    if 2 < serviceCount row then detectGo rest (i + 1)
    else if 3 ≤ foundHeaders row ∨ 2 ≤ strongMatches row then i
    else detectGo rest (i + 1)

/-- `detect_data_start_row`: scan at most the first 30 rows
(`range(min(30, len(df)))`, line 422). -/
def detectDataStartRow (grid : List (List Cell)) : Nat :=
  detectGo (grid.take 30) 0

/-- A row qualifies as a header row in the sense of the spec: its
boilerplate count is at most 2 and it has at least 3 vocabulary matches or
at least 2 strong matches. -/
def headerRowQualifies (row : List Cell) : Prop :=
  serviceCount row ≤ 2 ∧ (3 ≤ foundHeaders row ∨ 2 ≤ strongMatches row)

instance (row : List Cell) : Decidable (headerRowQualifies row) := by
  unfold headerRowQualifies
  infer_instance

/-- Modelled from the spec: the index of the first qualifying row of a
list, if any. -/
def firstQualIdx : List (List Cell) → Option Nat
  | [] => none
  | row :: rest =>
    if headerRowQualifies row then some 0 else (firstQualIdx rest).map (· + 1)

/-- Modelled from the spec: the first qualifying row index among the first
30 rows, or 0 when none qualifies. -/
def detectHeaderRowSpec (grid : List (List Cell)) : Nat :=
  (firstQualIdx (grid.take 30)).getD 0

theorem detectGo_none (l : List (List Cell)) :
    firstQualIdx l = none → ∀ i : Nat, detectGo l i = 0 := by
  induction l with
  | nil =>
    intro _ i
    rfl
  | cons row rest ih =>
    intro h i
    by_cases hq : headerRowQualifies row
    · rw [firstQualIdx, if_pos hq] at h
      cases h
    · rw [firstQualIdx, if_neg hq] at h
      have hrest : firstQualIdx rest = none := by
        cases hr : firstQualIdx rest with
        | none => rfl
        | some k =>
          rw [hr] at h
          simp at h
      rw [detectGo]
      by_cases hs : 2 < serviceCount row
      · rw [if_pos hs]
        exact ih hrest (i + 1)
      · rw [if_neg hs]
        have hdisj : ¬ (3 ≤ foundHeaders row ∨ 2 ≤ strongMatches row) := by
          intro hd
          exact hq ⟨by omega, hd⟩
        rw [if_neg hdisj]
        exact ih hrest (i + 1)

theorem detectGo_some (l : List (List Cell)) :
    ∀ (j : Nat), firstQualIdx l = some j → ∀ i : Nat, detectGo l i = i + j := by
  induction l with
  | nil =>
    intro j h
    simp [firstQualIdx] at h
  | cons row rest ih =>
    intro j h i
    by_cases hq : headerRowQualifies row
    · rw [firstQualIdx, if_pos hq] at h
      cases h
      obtain ⟨h1, h2⟩ := hq
      rw [detectGo, if_neg (by omega), if_pos h2]
      omega
    · rw [firstQualIdx, if_neg hq] at h
      cases hrest : firstQualIdx rest with
      | none =>
        rw [hrest] at h
        simp at h
      | some k =>
        rw [hrest] at h
        simp only [Option.map_some', Option.some_inj] at h
        subst h
        have hrec := ih k hrest (i + 1)
        rw [detectGo]
        by_cases hs : 2 < serviceCount row
        · rw [if_pos hs, hrec]
          omega
        · rw [if_neg hs]
          have hdisj : ¬ (3 ≤ foundHeaders row ∨ 2 ≤ strongMatches row) := by
            intro hd
            exact hq ⟨by omega, hd⟩
          rw [if_neg hdisj, hrec]
          omega

theorem firstQualIdx_some_spec (l : List (List Cell)) :
    ∀ j : Nat, firstQualIdx l = some j →
      ∃ row, l[j]? = some row ∧ headerRowQualifies row ∧
        ∀ (i : Nat) (row₂ : List Cell), i < j → l[i]? = some row₂ →
          ¬ headerRowQualifies row₂ := by
  induction l with
  | nil =>
    intro j h
    simp [firstQualIdx] at h
  | cons row rest ih =>
    intro j h
    by_cases hq : headerRowQualifies row
    · rw [firstQualIdx, if_pos hq] at h
      cases h
      exact ⟨row, by simp, hq, fun i row₂ hi => by omega⟩
    · rw [firstQualIdx, if_neg hq] at h
      cases hrest : firstQualIdx rest with
      | none =>
        rw [hrest] at h
        simp at h
      | some k =>
        rw [hrest] at h
        simp only [Option.map_some', Option.some_inj] at h
        subst h
        obtain ⟨row₁, hget, hq₁, hmin⟩ := ih k hrest
        refine ⟨row₁, by simpa using hget, hq₁, ?_⟩
        intro i row₂ hi hgi
        cases i with
        | zero =>
          simp at hgi
          subst hgi
          exact hq
        | succ i =>
          simp only [List.getElem?_cons_succ] at hgi
          exact hmin i row₂ (by omega) hgi

theorem firstQualIdx_none_spec (l : List (List Cell)) (h : firstQualIdx l = none) :
    ∀ (i : Nat) (row : List Cell), l[i]? = some row → ¬ headerRowQualifies row := by
  induction l with
  | nil =>
    intro i row hget
    simp at hget
  | cons row₀ rest ih =>
    intro i row hget
    by_cases hq : headerRowQualifies row₀
    · rw [firstQualIdx, if_pos hq] at h
      cases h
    · rw [firstQualIdx, if_neg hq] at h
      cases i with
      | zero =>
        simp at hget
        subst hget
        exact hq
      | succ i =>
        simp only [List.getElem?_cons_succ] at hget
        have hrest : firstQualIdx rest = none := by
          cases hr : firstQualIdx rest with
          | none => rfl
          | some k =>
            rw [hr] at h
            simp at h
        exact ih hrest i row hget

/-- Claim C1: `detect_data_start_row` returns the 0-based index of the
first row among the first 30 whose boilerplate count is at most 2 and whose
vocabulary-match count is at least 3 or strong-match count at least 2
(rows with boilerplate count above 2 are skipped regardless of their other
scores), and returns 0 when no row among the first 30 qualifies. -/
theorem claim1_detect_first_qualifying (grid : List (List Cell)) :
    detectDataStartRow grid = detectHeaderRowSpec grid ∧
    (∀ j, firstQualIdx (grid.take 30) = some j →
      ∃ row, (grid.take 30)[j]? = some row ∧ headerRowQualifies row ∧
        ∀ (i : Nat) (row₂ : List Cell), i < j → (grid.take 30)[i]? = some row₂ →
          ¬ headerRowQualifies row₂) ∧
    (firstQualIdx (grid.take 30) = none →
      ∀ (i : Nat) (row : List Cell), (grid.take 30)[i]? = some row →
        ¬ headerRowQualifies row) := by
  refine ⟨?_, firstQualIdx_some_spec _, firstQualIdx_none_spec _⟩
  unfold detectDataStartRow detectHeaderRowSpec
  cases hfq : firstQualIdx (grid.take 30) with
  | none =>
    rw [detectGo_none (grid.take 30) hfq 0]
    rfl
  | some j =>
    rw [detectGo_some (grid.take 30) j hfq 0]
    simp

/-- Claim C1 witness: a grid with one boilerplate banner row (three service
words), then a header row with three vocabulary matches, detected at
index 1. -/
theorem claim1_witness :
    detectDataStartRow
      [[Cell.str (String.toList "Новинки! Экспресс доставка")],
       [Cell.str (String.toList "Артикул"), Cell.str (String.toList "Название"),
        Cell.str (String.toList "Цена")]] = 1 ∧
    firstQualIdx
      [[Cell.str (String.toList "Новинки! Экспресс доставка")],
       [Cell.str (String.toList "Артикул"), Cell.str (String.toList "Название"),
        Cell.str (String.toList "Цена")]] = some 1 := by
  constructor
  · have h := (claim1_detect_first_qualifying
      [[Cell.str (String.toList "Новинки! Экспресс доставка")],
       [Cell.str (String.toList "Артикул"), Cell.str (String.toList "Название"),
        Cell.str (String.toList "Цена")]]).1
    rw [h]
    decide
  · decide

/-! ## Union-table schema (merge_pricelists.py lines 89-104) -/

/-- `add_column_to_unified_table` (lines 89-97): `ALTER TABLE all_pricelists
ADD COLUMN <clean> TEXT`, with the duplicate-column error swallowed by the
bare `except: pass`.  The union schema is modelled as the ordered list of
its column names. -/
def addColumnToUnifiedTable (cols : List Txt) (name : Txt) : List Txt :=
  if cleanColumnName name ∈ cols then cols else cols ++ [cleanColumnName name]

/-- The `for col in df.columns: self.add_column_to_unified_table(col)` loop
of `insert_to_unified_table` (lines 103-104), for one source's headers. -/
def ensureUnionColumns (cols : List Txt) (headers : List Txt) : List Txt :=
  headers.foldl addColumnToUnifiedTable cols

/-- The union schema after processing a sequence of sources (each given by
its raw header list), starting from `cols`. -/
def processSourcesSchema (cols : List Txt) (sources : List (List Txt)) : List Txt :=
  sources.foldl ensureUnionColumns cols

theorem addColumn_sublist (cols : List Txt) (name : Txt) :
    cols.Sublist (addColumnToUnifiedTable cols name) := by
  unfold addColumnToUnifiedTable
  by_cases h : cleanColumnName name ∈ cols
  · rw [if_pos h]
  · rw [if_neg h]
    exact List.sublist_append_left cols _

theorem addColumn_mem (cols : List Txt) (name : Txt) :
    cleanColumnName name ∈ addColumnToUnifiedTable cols name := by
  unfold addColumnToUnifiedTable
  by_cases h : cleanColumnName name ∈ cols
  · rw [if_pos h]
    exact h
  · rw [if_neg h]
    simp

theorem addColumn_of_mem (cols : List Txt) (name : Txt)
    (h : cleanColumnName name ∈ cols) :
    addColumnToUnifiedTable cols name = cols := by
  unfold addColumnToUnifiedTable
  rw [if_pos h]

theorem ensureUnionColumns_sublist (headers : List Txt) :
    ∀ cols : List Txt, cols.Sublist (ensureUnionColumns cols headers) := by
  induction headers with
  | nil =>
    intro cols
    exact List.Sublist.refl cols
  | cons h hs ih =>
    intro cols
    exact (addColumn_sublist cols h).trans (ih (addColumnToUnifiedTable cols h))

theorem ensureUnionColumns_mem (headers : List Txt) :
    ∀ (cols : List Txt) (h : Txt), h ∈ headers →
      cleanColumnName h ∈ ensureUnionColumns cols headers := by
  induction headers with
  | nil =>
    intro cols h hh
    simp at hh
  | cons hd hs ih =>
    intro cols h hh
    rcases List.mem_cons.mp hh with rfl | hh
    · have h1 := addColumn_mem cols h
      have h2 := ensureUnionColumns_sublist hs (addColumnToUnifiedTable cols h)
      exact h2.subset h1
    · exact ih (addColumnToUnifiedTable cols hd) h hh

theorem processSources_sublist (sources : List (List Txt)) :
    ∀ cols : List Txt, cols.Sublist (processSourcesSchema cols sources) := by
  induction sources with
  | nil =>
    intro cols
    exact List.Sublist.refl cols
  | cons s ss ih =>
    intro cols
    exact (ensureUnionColumns_sublist s cols).trans (ih (ensureUnionColumns cols s))

/-- Claim C2: after processing sources S1..Sn, the union table's columns
contain the sanitized name of every header of every source; columns are
never removed (each intermediate schema is a sublist of every later one);
and adding a column whose sanitized name is already present leaves the
schema unchanged (idempotent no-op rather than a failure). -/
theorem claim2_union_schema (sources : List (List Txt)) (init : List Txt)
    (s : List Txt) (h : Txt) (hs : s ∈ sources) (hh : h ∈ s) :
    cleanColumnName h ∈ processSourcesSchema init sources ∧
    (∀ (cols : List Txt) (more : List (List Txt)),
      cols.Sublist (processSourcesSchema cols more)) ∧
    (∀ (cols : List Txt) (name : Txt),
      cols.Sublist (addColumnToUnifiedTable cols name)) ∧
    (∀ (cols : List Txt) (name : Txt), cleanColumnName name ∈ cols →
      addColumnToUnifiedTable cols name = cols) ∧
    (∀ (cols : List Txt) (name : Txt),
      addColumnToUnifiedTable (addColumnToUnifiedTable cols name) name =
        addColumnToUnifiedTable cols name) := by
  refine ⟨?_, fun cols more => processSources_sublist more cols,
    addColumn_sublist, addColumn_of_mem, ?_⟩
  · induction sources generalizing init with
    | nil => simp at hs
    | cons s₀ ss ih =>
      rcases List.mem_cons.mp hs with rfl | hs₀
      · have h1 := ensureUnionColumns_mem s init h hh
        have h2 := processSources_sublist ss (ensureUnionColumns init s)
        exact h2.subset h1
      · exact ih (ensureUnionColumns init s₀) hs₀
  · intro cols name
    exact addColumn_of_mem _ name (addColumn_mem cols name)

/-- Claim C2 witness: two sources sharing the header `"Цена"`; the union
schema contains its sanitized form once added, and re-adding it is a no-op. -/
theorem claim2_witness :
    cleanColumnName (String.toList "Цена") ∈
      processSourcesSchema []
        [[String.toList "Цена", String.toList "Артикул"], [String.toList "Цена"]] ∧
    addColumnToUnifiedTable
        (addColumnToUnifiedTable [] (String.toList "Цена")) (String.toList "Цена") =
      addColumnToUnifiedTable [] (String.toList "Цена") := by
  constructor
  · exact (claim2_union_schema
      [[String.toList "Цена", String.toList "Артикул"], [String.toList "Цена"]] []
      [String.toList "Цена", String.toList "Артикул"] (String.toList "Цена")
      (by simp) (by simp)).1
  · exact (claim2_union_schema
      [[String.toList "Цена", String.toList "Артикул"], [String.toList "Цена"]] []
      [String.toList "Цена", String.toList "Артикул"] (String.toList "Цена")
      (by simp) (by simp)).2.2.2.2
      (addColumnToUnifiedTable [] (String.toList "Цена")) (String.toList "Цена")

/-! ## Row insertion (merge_pricelists.py lines 99-136 and 205-250) -/

/-- Reserved column names of the generated tables. -/
def srcRowKey : Txt := String.toList "source_row"

/-- The `source_file` column of the union table. -/
def srcFileKey : Txt := String.toList "source_file"

/-- The `sheet_name` column of the union table. -/
def sheetNameKey : Txt := String.toList "sheet_name"

/-- The synthetic `id` column. -/
def idKey : Txt := String.toList "id"

/-- The `processed_at` column. -/
def processedAtKey : Txt := String.toList "processed_at"

/-- Python dict assignment `d[k] = v`: update in place when the key exists,
append otherwise. -/
def dictInsert (d : List (Txt × SqlValue)) (k : Txt) (v : SqlValue) :
    List (Txt × SqlValue) :=
  if d.any (fun p => decide (p.1 = k)) then
    d.map (fun p => if p.1 = k then (k, v) else p)
  else d ++ [(k, v)]

/-- The value a dict associates to a key. -/
def lookupDict (d : List (Txt × SqlValue)) (k : Txt) : Option SqlValue :=
  (d.find? (fun p => decide (p.1 = k))).map (fun p => p.2)

/-- Value conversion of `insert_data_to_table` (lines 222-232): `NaN` to
null, numbers kept as numbers, everything else through `str`. -/
def psConvert : Cell → SqlValue
  | Cell.null => SqlValue.null
  | Cell.num n => SqlValue.num n
  | Cell.str s => SqlValue.text s

/-- Decimal rendering of an integer (Python `str` on an int). -/
def intToChars (n : Int) : Txt :=
  if n < 0 then '-' :: natToChars n.natAbs else natToChars n.toNat

/-- Value conversion of `insert_to_unified_table` (line 118):
`str(row[col]) if pd.notna(row[col]) else None` — numbers are stringified. -/
def uConvert : Cell → SqlValue
  | Cell.null => SqlValue.null
  | Cell.num n => SqlValue.text (intToChars n)
  | Cell.str s => SqlValue.text s

/-- One step of the per-source insertion loop (lines 219-234): sanitize the
column name without a collision set, skip it unless it is among the table's
columns, and assign the converted value into the dict. -/
def psStep (tableColumns : List Txt) (d : List (Txt × SqlValue))
    (hc : Txt × Cell) : List (Txt × SqlValue) :=
  if cleanColumnName hc.1 ∈ tableColumns then
    dictInsert d (cleanColumnName hc.1) (psConvert hc.2)
  else d

/-- One step of the union insertion loop (lines 116-118): no membership
check, stringified values. -/
def uStep (d : List (Txt × SqlValue)) (hc : Txt × Cell) :
    List (Txt × SqlValue) :=
  dictInsert d (cleanColumnName hc.1) (uConvert hc.2)

/-- The `insert_data` dict built by `insert_data_to_table` for one row at
0-based position `idx` (lines 213-234): it starts from
`{'source_row': index + 1}`. -/
def buildPerSourceRow (tableColumns : List Txt) (pairs : List (Txt × Cell))
    (idx : Nat) : List (Txt × SqlValue) :=
  pairs.foldl (psStep tableColumns) [(srcRowKey, SqlValue.num ((idx : Int) + 1))]

/-- The `insert_data` dict built by `insert_to_unified_table` for one row at
0-based position `idx` (lines 107-118): it starts from the source file
name, the sheet name and `index + 1`. -/
def buildUnionRow (fileName sheetName : Txt) (pairs : List (Txt × Cell))
    (idx : Nat) : List (Txt × SqlValue) :=
  pairs.foldl uStep
    [(srcFileKey, SqlValue.text fileName), (sheetNameKey, SqlValue.text sheetName),
     (srcRowKey, SqlValue.num ((idx : Int) + 1))]

/-- All per-source dicts of a parsed table: `for index, row in df.iterrows()`
with the default positional index, so the ordinal stored for the row at
0-based position `i` is `i + 1`. -/
def perSourceTableRows (tableColumns : List Txt) (headers : List Txt)
    (rows : List (List Cell)) : List (List (Txt × SqlValue)) :=
  rows.enum.map (fun p => buildPerSourceRow tableColumns (headers.zip p.2) p.1)

/-- All union dicts of a parsed table. -/
def unionTableRows (fileName sheetName : Txt) (headers : List Txt)
    (rows : List (List Cell)) : List (List (Txt × SqlValue)) :=
  rows.enum.map (fun p => buildUnionRow fileName sheetName (headers.zip p.2) p.1)

/-! ### Dict lemmas -/

theorem lookupDict_dictInsert_self (d : List (Txt × SqlValue)) (k : Txt)
    (v : SqlValue) : lookupDict (dictInsert d k v) k = some v := by
  unfold dictInsert
  by_cases hany : d.any (fun p => decide (p.1 = k)) = true
  · rw [if_pos hany]
    induction d with
    | nil => simp at hany
    | cons p d ih =>
      by_cases hp : p.1 = k
      · simp only [List.map_cons, if_pos hp]
        unfold lookupDict
        rw [List.find?_cons_of_pos _ (by simp)]
        rfl
      · simp only [List.any_cons] at hany
        have hd : d.any (fun p => decide (p.1 = k)) = true := by
          rcases Bool.or_eq_true_iff.mp hany with h1 | h1
          · exact absurd (of_decide_eq_true h1) hp
          · exact h1
        simp only [List.map_cons, if_neg hp]
        unfold lookupDict
        rw [List.find?_cons_of_neg _ (by simp [hp])]
        exact ih hd
  · rw [if_neg hany]
    induction d with
    | nil =>
      unfold lookupDict
      rw [List.nil_append, List.find?_cons_of_pos _ (by simp)]
      rfl
    | cons p d ih =>
      simp only [List.any_cons] at hany
      have hp : ¬ p.1 = k := by
        intro h
        exact hany (Bool.or_eq_true_iff.mpr (Or.inl (decide_eq_true h)))
      have hd : ¬ d.any (fun p => decide (p.1 = k)) = true := by
        intro h
        exact hany (Bool.or_eq_true_iff.mpr (Or.inr h))
      unfold lookupDict
      rw [List.cons_append, List.find?_cons_of_neg _ (by simp [hp])]
      exact ih hd

theorem lookupDict_dictInsert_ne (d : List (Txt × SqlValue)) (k k' : Txt)
    (v : SqlValue) (h : k' ≠ k) :
    lookupDict (dictInsert d k v) k' = lookupDict d k' := by
  unfold dictInsert
  by_cases hany : d.any (fun p => decide (p.1 = k)) = true
  · rw [if_pos hany]
    clear hany
    induction d with
    | nil => rfl
    | cons p d ih =>
      by_cases hp : p.1 = k
      · simp only [List.map_cons, if_pos hp]
        unfold lookupDict
        rw [List.find?_cons_of_neg _ (by simp [Ne.symm h]),
          List.find?_cons_of_neg _ (by simp [hp ▸ Ne.symm h])]
        exact ih
      · simp only [List.map_cons, if_neg hp]
        by_cases hpk : p.1 = k'
        · unfold lookupDict
          rw [List.find?_cons_of_pos _ (by simp [hpk]),
            List.find?_cons_of_pos _ (by simp [hpk])]
        · unfold lookupDict
          rw [List.find?_cons_of_neg _ (by simp [hpk]),
            List.find?_cons_of_neg _ (by simp [hpk])]
          exact ih
  · rw [if_neg hany]
    clear hany
    induction d with
    | nil =>
      unfold lookupDict
      rw [List.nil_append, List.find?_cons_of_neg _ (by simp [Ne.symm h])]
    | cons p d ih =>
      by_cases hpk : p.1 = k'
      · unfold lookupDict
        rw [List.cons_append, List.find?_cons_of_pos _ (by simp [hpk]),
          List.find?_cons_of_pos _ (by simp [hpk])]
      · unfold lookupDict
        rw [List.cons_append, List.find?_cons_of_neg _ (by simp [hpk]),
          List.find?_cons_of_neg _ (by simp [hpk])]
        exact ih

theorem psFold_lookup_not_mem (tc : List Txt) (pairs : List (Txt × Cell)) :
    ∀ (d0 : List (Txt × SqlValue)) (k : Txt),
      k ∉ pairs.map (fun hc => cleanColumnName hc.1) →
      lookupDict (pairs.foldl (psStep tc) d0) k = lookupDict d0 k := by
  induction pairs with
  | nil =>
    intro d0 k _
    rfl
  | cons hc pairs ih =>
    intro d0 k h
    simp only [List.map_cons, List.mem_cons] at h
    push_neg at h
    obtain ⟨h1, h2⟩ := h
    rw [List.foldl_cons, ih _ k h2]
    unfold psStep
    by_cases hm : cleanColumnName hc.1 ∈ tc
    · rw [if_pos hm, lookupDict_dictInsert_ne _ _ _ _ h1]
    · rw [if_neg hm]

theorem uFold_lookup_not_mem (pairs : List (Txt × Cell)) :
    ∀ (d0 : List (Txt × SqlValue)) (k : Txt),
      k ∉ pairs.map (fun hc => cleanColumnName hc.1) →
      lookupDict (pairs.foldl uStep d0) k = lookupDict d0 k := by
  induction pairs with
  | nil =>
    intro d0 k _
    rfl
  | cons hc pairs ih =>
    intro d0 k h
    simp only [List.map_cons, List.mem_cons] at h
    push_neg at h
    obtain ⟨h1, h2⟩ := h
    rw [List.foldl_cons, ih _ k h2]
    unfold uStep
    rw [lookupDict_dictInsert_ne _ _ _ _ h1]

theorem psRow_lookup (tc : List Txt) (pre post : List (Txt × Cell)) (h : Txt)
    (c : Cell) (idx : Nat) (hmem : cleanColumnName h ∈ tc)
    (hafter : cleanColumnName h ∉ post.map (fun hc => cleanColumnName hc.1)) :
    lookupDict (buildPerSourceRow tc (pre ++ (h, c) :: post) idx)
      (cleanColumnName h) = some (psConvert c) := by
  unfold buildPerSourceRow
  rw [List.foldl_append, List.foldl_cons,
    psFold_lookup_not_mem tc post _ _ hafter]
  have hstep : psStep tc (pre.foldl (psStep tc)
        [(srcRowKey, SqlValue.num ((idx : Int) + 1))]) (h, c)
      = dictInsert (pre.foldl (psStep tc)
        [(srcRowKey, SqlValue.num ((idx : Int) + 1))]) (cleanColumnName h)
        (psConvert c) := by
    unfold psStep
    rw [if_pos hmem]
  rw [hstep, lookupDict_dictInsert_self]

theorem uRow_lookup (fileName sheetName : Txt) (pre post : List (Txt × Cell))
    (h : Txt) (c : Cell) (idx : Nat)
    (hafter : cleanColumnName h ∉ post.map (fun hc => cleanColumnName hc.1)) :
    lookupDict (buildUnionRow fileName sheetName (pre ++ (h, c) :: post) idx)
      (cleanColumnName h) = some (uConvert c) := by
  unfold buildUnionRow
  rw [List.foldl_append, List.foldl_cons,
    uFold_lookup_not_mem post _ _ hafter]
  exact lookupDict_dictInsert_self _ _ _

theorem psRow_srcRow (tc : List Txt) (pairs : List (Txt × Cell)) (idx : Nat)
    (hno : srcRowKey ∉ pairs.map (fun hc => cleanColumnName hc.1)) :
    lookupDict (buildPerSourceRow tc pairs idx) srcRowKey
      = some (SqlValue.num ((idx : Int) + 1)) := by
  unfold buildPerSourceRow
  rw [psFold_lookup_not_mem tc pairs _ _ hno]
  unfold lookupDict
  rw [List.find?_cons_of_pos _ (by simp)]
  rfl

theorem uRow_srcRow (fileName sheetName : Txt) (pairs : List (Txt × Cell))
    (idx : Nat)
    (hno : srcRowKey ∉ pairs.map (fun hc => cleanColumnName hc.1)) :
    lookupDict (buildUnionRow fileName sheetName pairs idx) srcRowKey
      = some (SqlValue.num ((idx : Int) + 1)) := by
  unfold buildUnionRow
  rw [uFold_lookup_not_mem pairs _ _ hno]
  unfold lookupDict
  have h1 : srcFileKey ≠ srcRowKey := by decide
  have h2 : sheetNameKey ≠ srcRowKey := by decide
  rw [List.find?_cons_of_neg _ (by simp [h1]), List.find?_cons_of_neg _ (by simp [h2]),
    List.find?_cons_of_pos _ (by simp)]
  rfl

/-- Claim C3, counterexample: a numeric cell is stored as a number by the
per-source insert but as its decimal text by the union insert — the two
inserts do not carry the same value on the shared column. -/
theorem claim3_counterexample :
    lookupDict (buildPerSourceRow
        [idKey, srcRowKey, processedAtKey, cleanColumnName (String.toList "Цена")]
        [(String.toList "Цена", Cell.num 7)] 0)
      (cleanColumnName (String.toList "Цена")) = some (SqlValue.num 7) ∧
    lookupDict (buildUnionRow (String.toList "price.xlsx") (String.toList "Лист1")
        [(String.toList "Цена", Cell.num 7)] 0)
      (cleanColumnName (String.toList "Цена"))
      = some (SqlValue.text (String.toList "7")) ∧
    SqlValue.num 7 ≠ SqlValue.text (String.toList "7") := by decide

/-- Claim C3 (amended): on a shared sanitized column, the per-source insert
stores null for null cells, the number itself for numeric cells and the text
for all other cells, while the union insert stores null for null cells but
the decimal text rendering for numeric cells; both record the source-row
ordinal `index + 1`, the row's 1-based position in the parsed table. -/
theorem claim3_amended (tc : List Txt) (fileName sheetName : Txt)
    (pre post : List (Txt × Cell)) (h : Txt) (c : Cell) (idx : Nat)
    (hmem : cleanColumnName h ∈ tc)
    (hafter : cleanColumnName h ∉ post.map (fun hc => cleanColumnName hc.1))
    (hsr : srcRowKey ∉ (pre ++ (h, c) :: post).map (fun hc => cleanColumnName hc.1)) :
    lookupDict (buildPerSourceRow tc (pre ++ (h, c) :: post) idx)
      (cleanColumnName h) = some (psConvert c) ∧
    lookupDict (buildUnionRow fileName sheetName (pre ++ (h, c) :: post) idx)
      (cleanColumnName h) = some (uConvert c) ∧
    (c = Cell.null → psConvert c = SqlValue.null ∧ uConvert c = SqlValue.null) ∧
    (∀ s, c = Cell.str s → psConvert c = SqlValue.text s ∧
      uConvert c = SqlValue.text s) ∧
    (∀ n, c = Cell.num n → psConvert c = SqlValue.num n ∧
      uConvert c = SqlValue.text (intToChars n)) ∧
    lookupDict (buildPerSourceRow tc (pre ++ (h, c) :: post) idx) srcRowKey
      = some (SqlValue.num ((idx : Int) + 1)) ∧
    lookupDict (buildUnionRow fileName sheetName (pre ++ (h, c) :: post) idx)
      srcRowKey = some (SqlValue.num ((idx : Int) + 1)) ∧
    (∀ (rows : List (List Cell)) (i : Nat) (row : List Cell) (headers : List Txt),
      rows[i]? = some row →
      (perSourceTableRows tc headers rows)[i]? =
        some (buildPerSourceRow tc (headers.zip row) i) ∧
      (unionTableRows fileName sheetName headers rows)[i]? =
        some (buildUnionRow fileName sheetName (headers.zip row) i)) := by
  refine ⟨psRow_lookup tc pre post h c idx hmem hafter,
    uRow_lookup fileName sheetName pre post h c idx hafter,
    ?_, ?_, ?_,
    psRow_srcRow tc _ idx hsr,
    uRow_srcRow fileName sheetName _ idx hsr,
    ?_⟩
  · rintro rfl
    exact ⟨rfl, rfl⟩
  · rintro s rfl
    exact ⟨rfl, rfl⟩
  · rintro n rfl
    exact ⟨rfl, rfl⟩
  · intro rows i row headers hrow
    constructor
    · unfold perSourceTableRows
      rw [List.getElem?_map, List.getElem?_enum, hrow]
      rfl
    · unfold unionTableRows
      rw [List.getElem?_map, List.getElem?_enum, hrow]
      rfl

/-- Claim C3 witness: the amended statement evaluated on a one-column row
holding a null cell. -/
theorem claim3_witness :
    lookupDict (buildPerSourceRow
        [idKey, srcRowKey, processedAtKey, cleanColumnName (String.toList "Цена")]
        ([] ++ (String.toList "Цена", Cell.null) :: []) 0)
      (cleanColumnName (String.toList "Цена")) = some (psConvert Cell.null) ∧
    lookupDict (buildUnionRow (String.toList "p.csv") csvSentinel
        ([] ++ (String.toList "Цена", Cell.null) :: []) 0)
      (cleanColumnName (String.toList "Цена")) = some (uConvert Cell.null) := by
  have happ := claim3_amended
    [idKey, srcRowKey, processedAtKey, cleanColumnName (String.toList "Цена")]
    (String.toList "p.csv") csvSentinel [] [] (String.toList "Цена") Cell.null 0
    (by decide) (by decide) (by decide)
  exact ⟨happ.1, happ.2.1⟩

/-! ## create_table_for_file (merge_pricelists.py lines 176-203) and claim C10 -/

/-- The data-column names chosen by `create_table_for_file` (lines 180-184):
each header sanitized against a fresh per-table `existing_columns` set, in
header order. -/
def tableDataColumns (headers : List Txt) : List Txt :=
  (headers.foldl
    (fun acc h => (acc.1 ++ [(cleanColumnNameWith h acc.2).1],
      (cleanColumnNameWith h acc.2).2))
    (([] : List Txt), (∅ : Finset Txt))).1

/-- The full column list of the created per-source table, in the order
`PRAGMA table_info` reports it (lines 186-197 and 208-210): `id`,
`source_row`, `processed_at`, then the data columns. -/
def tableColumnsFor (headers : List Txt) : List Txt :=
  idKey :: srcRowKey :: processedAtKey :: tableDataColumns headers

/-- Claim C10: when two distinct header cells sanitize to the same base
name, the created table carries two distinct columns (the base and its
`_1` variant, via the fresh `existing_columns` set), but row insertion
sanitizes without that set, so both cells map to the base column: the
inserted dict stores the later cell's value under the base name and binds
nothing to the `_1` column, which is therefore left null. -/
theorem claim10_duplicate_headers (h1 h2 : Txt) (c1 c2 : Cell) (idx : Nat)
    (_hne : h1 ≠ h2) (hcol : cleanColumnName h1 = cleanColumnName h2) :
    tableDataColumns [h1, h2] =
      [cleanColumnName h1, underscoreSuffix (cleanColumnName h1) 1] ∧
    cleanColumnName h1 ≠ underscoreSuffix (cleanColumnName h1) 1 ∧
    lookupDict (buildPerSourceRow (tableColumnsFor [h1, h2])
        [(h1, c1), (h2, c2)] idx) (cleanColumnName h1) = some (psConvert c2) ∧
    lookupDict (buildPerSourceRow (tableColumnsFor [h1, h2])
        [(h1, c1), (h2, c2)] idx) (underscoreSuffix (cleanColumnName h1) 1)
      = none := by
  have e1 : cleanChoice h1 (∅ : Finset Txt) = cleanColumnName h1 := by
    unfold cleanChoice
    rw [if_neg (Finset.not_mem_empty _)]
  have e2 : cleanChoice h2 (insert (cleanColumnName h1) ∅) =
      underscoreSuffix (cleanColumnName h1) 1 := by
    unfold cleanChoice
    rw [← hcol, if_pos (Finset.mem_insert_self _ _)]
    have hcard : (insert (cleanColumnName h1) (∅ : Finset Txt)).card = 1 := by
      simp
    rw [hcard]
    show findFree (cleanColumnName h1) _ (1 + 1) 1 = _
    rw [findFree]
    rw [if_neg (by simp [underscoreSuffix_ne_base])]
  have hstep : tableDataColumns [h1, h2] =
      [cleanChoice h1 ∅, cleanChoice h2 (insert (cleanChoice h1 ∅) ∅)] := by
    unfold tableDataColumns
    simp [cleanColumnNameWith]
  have hdata : tableDataColumns [h1, h2] =
      [cleanColumnName h1, underscoreSuffix (cleanColumnName h1) 1] := by
    rw [hstep, e1, e2]
  have hm1 : cleanColumnName h1 ∈ tableColumnsFor [h1, h2] := by
    unfold tableColumnsFor
    rw [hdata]
    simp
  have hm2 : cleanColumnName h2 ∈ tableColumnsFor [h1, h2] := by
    rw [← hcol]
    exact hm1
  have hfold : buildPerSourceRow (tableColumnsFor [h1, h2]) [(h1, c1), (h2, c2)] idx
      = dictInsert (dictInsert [(srcRowKey, SqlValue.num ((idx : Int) + 1))]
          (cleanColumnName h1) (psConvert c1)) (cleanColumnName h1) (psConvert c2) := by
    unfold buildPerSourceRow
    rw [List.foldl_cons, List.foldl_cons, List.foldl_nil]
    have s1 : psStep (tableColumnsFor [h1, h2])
        [(srcRowKey, SqlValue.num ((idx : Int) + 1))] (h1, c1)
        = dictInsert [(srcRowKey, SqlValue.num ((idx : Int) + 1))]
          (cleanColumnName h1) (psConvert c1) := by
      unfold psStep
      rw [if_pos hm1]
    rw [s1]
    unfold psStep
    rw [if_pos hm2]
    rw [show cleanColumnName (h2, c2).1 = cleanColumnName h1 from hcol.symm]
  have hlast1 : (underscoreSuffix (cleanColumnName h1) 1).getLast? = some '1' := by
    unfold underscoreSuffix
    rw [List.getLast?_append]
    have hn : ('_' :: natToChars 1).getLast? = some '1' := by decide
    rw [hn]
    rfl
  have hnesr : underscoreSuffix (cleanColumnName h1) 1 ≠ srcRowKey := by
    intro hEq
    rw [hEq] at hlast1
    have : srcRowKey.getLast? = some 'w' := by decide
    rw [this] at hlast1
    simp at hlast1
  refine ⟨hdata, (underscoreSuffix_ne_base _ 1).symm, ?_, ?_⟩
  · rw [hfold, lookupDict_dictInsert_self]
  · rw [hfold,
      lookupDict_dictInsert_ne _ _ _ _ (underscoreSuffix_ne_base _ 1),
      lookupDict_dictInsert_ne _ _ _ _ (underscoreSuffix_ne_base _ 1)]
    unfold lookupDict
    rw [List.find?_cons_of_neg _ (by simp [Ne.symm hnesr])]
    rfl

/-- Claim C10 witness: headers `"Цена-руб"` and `"Цена.руб"` both sanitize
to `"Цена_руб"`; the created columns and the inserted dict evaluated
concretely. -/
theorem claim10_witness :
    tableDataColumns [String.toList "Цена-руб", String.toList "Цена.руб"] =
      [cleanColumnName (String.toList "Цена-руб"),
       underscoreSuffix (cleanColumnName (String.toList "Цена-руб")) 1] ∧
    lookupDict (buildPerSourceRow
        (tableColumnsFor [String.toList "Цена-руб", String.toList "Цена.руб"])
        [(String.toList "Цена-руб", Cell.num 1),
         (String.toList "Цена.руб", Cell.num 2)] 0)
      (cleanColumnName (String.toList "Цена-руб")) = some (psConvert (Cell.num 2)) ∧
    lookupDict (buildPerSourceRow
        (tableColumnsFor [String.toList "Цена-руб", String.toList "Цена.руб"])
        [(String.toList "Цена-руб", Cell.num 1),
         (String.toList "Цена.руб", Cell.num 2)] 0)
      (underscoreSuffix (cleanColumnName (String.toList "Цена-руб")) 1) = none := by
  have happ := claim10_duplicate_headers (String.toList "Цена-руб")
    (String.toList "Цена.руб") (Cell.num 1) (Cell.num 2) 0 (by decide) (by decide)
  exact ⟨happ.1, happ.2.2.1, happ.2.2.2⟩

/-! ## Failure isolation (merge_pricelists.py lines 36-44, 252-300, 542-594) -/

/-- The sheet loop under the single file-level `try` of
`process_excel_file`: sheets are processed in order and the first raised
exception aborts the remaining sheets of that file; the exception is then
caught and logged by the file-level handler, so nothing propagates.  Each
sheet's body is modelled by its outcome. -/
def runSheetsUntilError {E A : Type} : List (Except E A) → List A
  | [] => []
  | Except.ok a :: rest => a :: runSheetsUntilError rest
  | Except.error _ :: _ => []

/-- `process_excel_file` (lines 252-300): the results of the sheets
actually processed; always returns (never raises). -/
def processExcelFile {E A : Type} (sheetBodies : List (Except E A)) : List A :=
  runSheetsUntilError sheetBodies

/-- `merge_all_pricelists` (lines 542-594) over `connect_db` (lines 36-44):
a connection failure is re-raised (lines 588-590) and aborts the run; with
a connection, every file is processed in order and per-file failures are
swallowed inside `process_excel_file`/`process_csv_file`, so the loop
always reaches every file. -/
def mergeAllPricelists {E C A : Type} (conn : Except E C)
    (files : List (List (Except E A))) : Except E (List (List A)) :=
  match conn with
  | Except.error e => Except.error e
  | Except.ok _ => Except.ok (files.map processExcelFile)

/-- Claim C8, counterexample: an exception on the first sheet of a file is
caught at file level, not sheet level — the second sheet of the same file
is skipped too, where the claim promises processing continues with the
remaining sheets. -/
theorem claim8_counterexample :
    processExcelFile ([Except.error 0, Except.ok 42] : List (Except Nat Nat)) = [] ∧
    42 ∉ processExcelFile ([Except.error 0, Except.ok 42] : List (Except Nat Nat)) := by
  decide

/-- Claim C8 (amended): a storage-connection failure propagates and is
fatal to the run; with a connection the run visits every file and never
aborts for a bad file; within one file, the first raising sheet aborts that
file's remaining sheets (the whole file is the unit of failure isolation),
and the exception is swallowed. -/
theorem claim8_amended {E C A : Type} :
    (∀ (e : E) (files : List (List (Except E A))),
      mergeAllPricelists (Except.error e : Except E C) files = Except.error e) ∧
    (∀ (c : C) (files : List (List (Except E A))),
      mergeAllPricelists (Except.ok c : Except E C) files
        = Except.ok (files.map processExcelFile)) ∧
    (∀ (oks : List A) (e : E) (rest : List (Except E A)),
      processExcelFile (oks.map Except.ok ++ Except.error e :: rest) = oks) := by
  refine ⟨fun e files => rfl, fun c files => rfl, ?_⟩
  intro oks e rest
  induction oks with
  | nil => rfl
  | cons a oks ih =>
    show a :: processExcelFile (oks.map Except.ok ++ Except.error e :: rest) = a :: oks
    rw [ih]

/-! ## search_by_source (view_data.py lines 106-126, export_to_excel.py
lines 142-168) -/

/-- SQLite's default `LIKE` case folding: ASCII letters only. -/
def sqliteLower (c : Char) : Char :=
  if 'A' ≤ c ∧ c ≤ 'Z' then Char.ofNat (c.toNat + 32) else c

/-- SQLite `LIKE` pattern matching (the storage collaborator): `%` matches
any run, `_` any single character, other characters match
ASCII-case-insensitively.  Fuel `p.length + s.length + 1` always suffices
since every recursive call shrinks the combined length. -/
def likeMatchF : Nat → Txt → Txt → Bool
  | 0, _, _ => false
  | _ + 1, [], s => s.isEmpty
  | fuel + 1, c :: ps, [] =>
    if c = '%' then likeMatchF fuel ps [] else false
  | fuel + 1, c :: ps, d :: s2 =>
    if c = '%' then likeMatchF fuel ps (d :: s2) || likeMatchF fuel (c :: ps) s2
    else if c = '_' then likeMatchF fuel ps s2
    else (sqliteLower c = sqliteLower d) && likeMatchF fuel ps s2

/-- SQLite `LIKE` with adequate fuel. -/
def likeMatch (p s : Txt) : Bool :=
  likeMatchF (p.length + s.length + 1) p s

theorem likeMatchF_nil_pat (n : Nat) (s : Txt) :
    likeMatchF (n + 1) [] s = s.isEmpty := rfl

theorem likeMatchF_pct_nil (n : Nat) (ps : Txt) :
    likeMatchF (n + 1) ('%' :: ps) [] = likeMatchF n ps [] := by
  show (if '%' = '%' then likeMatchF n ps [] else false) = _
  rw [if_pos rfl]

theorem likeMatchF_pct_cons (n : Nat) (ps : Txt) (d : Char) (s : Txt) :
    likeMatchF (n + 1) ('%' :: ps) (d :: s)
      = (likeMatchF n ps (d :: s) || likeMatchF n ('%' :: ps) s) := by
  show (if '%' = '%' then likeMatchF n ps (d :: s) || likeMatchF n ('%' :: ps) s
    else if '%' = '_' then likeMatchF n ps s
    else decide (sqliteLower '%' = sqliteLower d) && likeMatchF n ps s) = _
  rw [if_pos rfl]

theorem likeMatchF_char_nil (n : Nat) (c : Char) (ps : Txt) (hc : c ≠ '%') :
    likeMatchF (n + 1) (c :: ps) [] = false := by
  show (if c = '%' then likeMatchF n ps [] else false) = false
  rw [if_neg hc]

theorem likeMatchF_us_cons (n : Nat) (ps : Txt) (d : Char) (s : Txt) :
    likeMatchF (n + 1) ('_' :: ps) (d :: s) = likeMatchF n ps s := by
  show (if '_' = '%' then likeMatchF n ps (d :: s) || likeMatchF n ('_' :: ps) s
    else if '_' = '_' then likeMatchF n ps s
    else decide (sqliteLower '_' = sqliteLower d) && likeMatchF n ps s) = _
  rw [if_neg (by decide), if_pos rfl]

theorem likeMatchF_char_cons (n : Nat) (c : Char) (ps : Txt) (d : Char) (s : Txt)
    (hc : c ≠ '%') (hu : c ≠ '_') :
    likeMatchF (n + 1) (c :: ps) (d :: s)
      = (decide (sqliteLower c = sqliteLower d) && likeMatchF n ps s) := by
  show (if c = '%' then likeMatchF n ps (d :: s) || likeMatchF n (c :: ps) s
    else if c = '_' then likeMatchF n ps s
    else decide (sqliteLower c = sqliteLower d) && likeMatchF n ps s) = _
  rw [if_neg hc, if_neg hu]

theorem likeMatchF_congr : ∀ (f : Nat), ∀ (g : Nat) (p s : Txt),
    p.length + s.length < f → p.length + s.length < g →
    likeMatchF f p s = likeMatchF g p s := by
  intro f
  induction f with
  | zero =>
    intro g p s hf _
    omega
  | succ f ih =>
    intro g p s hf hg
    cases g with
    | zero => omega
    | succ g =>
      cases p with
      | nil => rfl
      | cons c ps =>
        simp only [List.length_cons] at hf hg
        by_cases hc : c = '%'
        · subst hc
          cases s with
          | nil =>
            rw [likeMatchF_pct_nil, likeMatchF_pct_nil,
              ih g ps [] (by simp; omega) (by simp; omega)]
          | cons d s2 =>
            simp only [List.length_cons] at hf hg
            rw [likeMatchF_pct_cons, likeMatchF_pct_cons,
              ih g ps (d :: s2) (by simp; omega) (by simp; omega),
              ih g ('%' :: ps) s2 (by simp; omega) (by simp; omega)]
        · cases s with
          | nil =>
            rw [likeMatchF_char_nil f c ps hc, likeMatchF_char_nil g c ps hc]
          | cons d s2 =>
            simp only [List.length_cons] at hf hg
            by_cases hu : c = '_'
            · subst hu
              rw [likeMatchF_us_cons, likeMatchF_us_cons,
                ih g ps s2 (by omega) (by omega)]
            · rw [likeMatchF_char_cons f c ps d s2 hc hu,
                likeMatchF_char_cons g c ps d s2 hc hu,
                ih g ps s2 (by omega) (by omega)]

theorem likeMatchF_eq_likeMatch (f : Nat) (p s : Txt)
    (h : p.length + s.length < f) : likeMatchF f p s = likeMatch p s :=
  likeMatchF_congr f (p.length + s.length + 1) p s h (by omega)

theorem likeMatch_pct_nil (ps : Txt) : likeMatch ('%' :: ps) [] = likeMatch ps [] := by
  unfold likeMatch
  rw [show ('%' :: ps).length + List.length ([] : Txt) + 1
      = (('%' :: ps).length + List.length ([] : Txt)) + 1 from rfl,
    likeMatchF_pct_nil]
  apply likeMatchF_eq_likeMatch
  simp

theorem likeMatch_pct_cons (ps : Txt) (d : Char) (s : Txt) :
    likeMatch ('%' :: ps) (d :: s)
      = (likeMatch ps (d :: s) || likeMatch ('%' :: ps) s) := by
  unfold likeMatch
  rw [show ('%' :: ps).length + (d :: s).length + 1
      = (('%' :: ps).length + (d :: s).length) + 1 from rfl,
    likeMatchF_pct_cons,
    likeMatchF_eq_likeMatch _ _ _ (by simp only [List.length_cons]; omega),
    likeMatchF_eq_likeMatch _ _ _ (by simp only [List.length_cons]; omega)]
  rfl

theorem likeMatch_char_nil (c : Char) (ps : Txt) (hc : c ≠ '%') :
    likeMatch (c :: ps) [] = false := by
  unfold likeMatch
  exact likeMatchF_char_nil _ c ps hc

theorem likeMatch_char_cons (c : Char) (ps : Txt) (d : Char) (s : Txt)
    (hc : c ≠ '%') (hu : c ≠ '_') :
    likeMatch (c :: ps) (d :: s)
      = (decide (sqliteLower c = sqliteLower d) && likeMatch ps s) := by
  unfold likeMatch
  rw [show (c :: ps).length + (d :: s).length + 1
      = ((c :: ps).length + (d :: s).length) + 1 from rfl,
    likeMatchF_char_cons _ c ps d s hc hu,
    likeMatchF_eq_likeMatch _ _ _ (by simp only [List.length_cons]; omega)]
  rfl

theorem likeMatch_pct_any (s : Txt) : likeMatch ['%'] s = true := by
  induction s with
  | nil =>
    rw [likeMatch_pct_nil]
    rfl
  | cons d s ih =>
    rw [likeMatch_pct_cons, ih, Bool.or_true]

/-- A wildcard-free pattern followed by `%` matches exactly the strings
with the pattern as an ASCII-case-insensitive prefix. -/
theorem likeMatch_prefix_iff : ∀ (t s : Txt), (∀ c ∈ t, c ≠ '%' ∧ c ≠ '_') →
    (likeMatch (t ++ ['%']) s = true ↔
      (t.map sqliteLower) <+: (s.map sqliteLower))
  | [], s, _ => by
    simp only [List.nil_append, List.map_nil]
    constructor
    · intro _
      exact List.nil_prefix
    · intro _
      exact likeMatch_pct_any s
  | c :: t, [], hw => by
    rw [List.cons_append,
      likeMatch_char_nil c (t ++ ['%']) (hw c (List.mem_cons_self c t)).1]
    simp
  | c :: t, d :: s, hw => by
    have hc := (hw c (List.mem_cons_self c t)).1
    have hu := (hw c (List.mem_cons_self c t)).2
    have hwt : ∀ x ∈ t, x ≠ '%' ∧ x ≠ '_' :=
      fun x hx => hw x (List.mem_cons_of_mem _ hx)
    rw [List.cons_append, likeMatch_char_cons c (t ++ ['%']) d s hc hu]
    simp only [List.map_cons, List.cons_prefix_cons, Bool.and_eq_true,
      decide_eq_true_eq]
    rw [likeMatch_prefix_iff t s hwt]

/-- The pattern `%t%` with wildcard-free `t` matches exactly the strings
containing `t` as an ASCII-case-insensitive substring. -/
theorem likeMatch_infix_iff : ∀ (s t : Txt), (∀ c ∈ t, c ≠ '%' ∧ c ≠ '_') →
    (likeMatch ('%' :: (t ++ ['%'])) s = true ↔
      (t.map sqliteLower) <:+: (s.map sqliteLower))
  | [], t, hw => by
    rw [likeMatch_pct_nil, likeMatch_prefix_iff t [] hw]
    simp
  | d :: s, t, hw => by
    rw [likeMatch_pct_cons, Bool.or_eq_true,
      likeMatch_prefix_iff t (d :: s) hw, likeMatch_infix_iff s t hw,
      List.map_cons, List.infix_cons_iff]

/-- One row of the `pricelists_metadata` catalog. -/
structure MetadataRow where
  table_name : Txt
  source_file : Txt
  source_sheet : Txt
  row_count : Nat
deriving DecidableEq

/-- Python `str.split()` with no arguments: maximal runs of
non-whitespace, with an accumulator holding the current (reversed) token. -/
def pySplitGo : Txt → Txt → List Txt
  | [], acc => if acc = [] then [] else [acc.reverse]
  | c :: rest, acc =>
    if isPyWs c then
      (if acc = [] then pySplitGo rest [] else acc.reverse :: pySplitGo rest [])
    else pySplitGo rest (c :: acc)

/-- Python `s.split()`. -/
def pySplit (s : Txt) : List Txt := pySplitGo s []

/-- `search_by_source` (view_data.py lines 106-126) and `export_by_source`
(export_to_excel.py lines 142-168): both run
`WHERE source_file LIKE ?` with parameter `f'%{source_file.split()[0]}%'`.
`split()[0]` raises `IndexError` when the query has no token (modelled as
`none`); otherwise exactly the catalog rows whose stored file name matches
the `LIKE` pattern are returned. -/
def searchBySource (q : Txt) (rows : List MetadataRow) :
    Option (List MetadataRow) :=
  match pySplit q with
  | [] => none
  | tok :: _ =>
    some (rows.filter (fun r => likeMatch ('%' :: (tok ++ ['%'])) r.source_file))

/-- Claim C9, counterexample: the filter keys on the first
whitespace-delimited token of the query only, not on the whole query as a
substring.  For query `"a b"` and stored file name `"ab"`, the whole query
is not a substring of the file name, yet the row is returned because the
first token `"a"` matches. -/
theorem claim9_counterexample :
    searchBySource (String.toList "a b")
        [⟨String.toList "t1", String.toList "ab", String.toList "s", 1⟩]
      = some [⟨String.toList "t1", String.toList "ab", String.toList "s", 1⟩] ∧
    containsSub (String.toList "a b") (String.toList "ab") = false ∧
    List.filter (fun r => containsSub (String.toList "a b") r.source_file)
        [(⟨String.toList "t1", String.toList "ab", String.toList "s", 1⟩ : MetadataRow)]
      = [] := by decide

/-- Claim C9 (amended): the source-file-filtered fetch returns exactly the
metadata rows whose stored file name contains the first
whitespace-delimited token of the query as an ASCII-case-insensitive
substring (SQL `LIKE '%token%'`); when the token contains `%` or `_` those
act as `LIKE` wildcards, and a whitespace-only query raises. -/
theorem claim9_amended (q : Txt) (rows : List MetadataRow) (tok : Txt)
    (rest : List Txt) (hsplit : pySplit q = tok :: rest)
    (hw : ∀ c ∈ tok, c ≠ '%' ∧ c ≠ '_') :
    searchBySource q rows = some (rows.filter
      (fun r => decide ((tok.map sqliteLower) <:+: (r.source_file.map sqliteLower)))) := by
  unfold searchBySource
  rw [hsplit]
  show some (rows.filter (fun r => likeMatch ('%' :: (tok ++ ['%'])) r.source_file)) = _
  congr 1
  apply List.filter_congr
  intro r _
  by_cases hI : (tok.map sqliteLower) <:+: (r.source_file.map sqliteLower)
  · rw [decide_eq_true hI]
    exact (likeMatch_infix_iff r.source_file tok hw).mpr hI
  · rw [decide_eq_false hI]
    exact Bool.eq_false_iff.mpr
      (fun hT => hI ((likeMatch_infix_iff r.source_file tok hw).mp hT))

/-- Claim C9 witness: query `"ФЕРОН прайс"`, one catalog row; the result is
the case-insensitive-substring filter on the first token `"ФЕРОН"`. -/
theorem claim9_witness :
    searchBySource (String.toList "ФЕРОН прайс")
        [⟨String.toList "t1", String.toList "ФЕРОН_прайс_07.08.25.csv",
          csvSentinel, 5⟩]
      = some (List.filter
          (fun r => decide (((String.toList "ФЕРОН").map sqliteLower) <:+:
            (r.source_file.map sqliteLower)))
          [⟨String.toList "t1", String.toList "ФЕРОН_прайс_07.08.25.csv",
            csvSentinel, 5⟩]) :=
  claim9_amended (String.toList "ФЕРОН прайс")
    [⟨String.toList "t1", String.toList "ФЕРОН_прайс_07.08.25.csv",
      csvSentinel, 5⟩]
    (String.toList "ФЕРОН") [String.toList "прайс"] (by decide) (by decide)
